import Mathlib

/-!
# opa_service.c : device wait, topology resolution, congestion-control blobs

A shallow embedding of the service routines of `src/opa/opa_service.c` together with
theorems about them.  The C functions talk to the outside world through `stat`,
`nanosleep`, `open`/`read`, `sscanf`, `strtod` and the attribute readers of
`opa_sysfs.c`; each of these is represented by an explicit environment value that the
embedded function receives as an argument.

C `long` and `int` values are mathematical integers (`Int`).  Where the C code converts
between widths the conversion is written out (`toInt32`, `toUInt32`, `toUInt64`), and
signed `long` arithmetic that would leave the range of the type makes the run end in
`Outcome.undefined`, as the C abstract machine leaves such a run without a meaning.
-/

namespace OpaService

/-! ## Machine integers -/

/-- Smallest value of a 64-bit C `long`. -/
def LONG_MIN : Int := -(2 ^ 63)

/-- Largest value of a 64-bit C `long`. -/
def LONG_MAX : Int := 2 ^ 63 - 1

/-- Membership in the range of a 64-bit C `long`. -/
abbrev inLong (x : Int) : Prop := LONG_MIN ≤ x ∧ x ≤ LONG_MAX

/-- Conversion of an integer to `uint32_t`: reduction modulo `2 ^ 32`. -/
def toUInt32 (x : Int) : Int := x % 2 ^ 32

/-- Conversion of an integer to `int` (32 bits, two's complement wrap). -/
def toInt32 (x : Int) : Int := (x + 2 ^ 31) % 2 ^ 32 - 2 ^ 31

/-- Conversion of an integer to `uint64_t`: reduction modulo `2 ^ 64`. -/
def toUInt64 (x : Int) : Nat := (x % 2 ^ 64).toNat

/-- Membership in the range of a 32-bit C `int`. -/
abbrev inInt32 (x : Int) : Prop := -(2 ^ 31) ≤ x ∧ x < 2 ^ 31

/-! ## errno values used by the code -/

/-- The errno value `ENOENT` of Linux. -/
def ENOENT : Int := 2

/-- The errno value `ETIMEDOUT` of Linux. -/
def ETIMEDOUT : Int := 110

/-- Return value of a system call together with the value `errno` holds after it. -/
structure SysRet where
  ret : Int
  errno : Int
  deriving DecidableEq, Repr

/-! ## hfi_wait_for_device (opa_service.c, lines 88-152) -/

/-- Outside world of `hfi_wait_for_device`: the result of the `k`-th call of
`stat(path, &st)` and the result of the `k`-th call of `nanosleep`, which may depend on
the requested `tv_nsec`. -/
structure WaitEnv where
  stat : Nat → SysRet
  nanosleep : Nat → Int → SysRet

/-- The three `break` statements of the polling loop. -/
inductive WaitExit where
  | statBreak
  | timedOut
  | sleepFailed
  deriving DecidableEq, Repr

/-- What `hfi_wait_for_device` leaves behind when it returns: the return value `ret`, the
value stored to `errno` (`saved_errno`), the accumulated `elapsed`, and two observations
of the run: the milliseconds of every sleep that was requested, in order, and the
`break` through which the loop was left. -/
structure WaitResult where
  ret : Int
  errno : Int
  elapsed : Int
  sleeps : List Int
  exit : WaitExit
  deriving DecidableEq, Repr

/-- Result of running the polling loop for a bounded number of iterations: it returned,
it is still polling (with the `elapsed` and the sleeps so far), or a signed `long`
operation overflowed. -/
inductive Outcome where
  | returned (r : WaitResult)
  | running (elapsed : Int) (sleeps : List Int)
  | undefined
  deriving DecidableEq, Repr

/-- The constant `default_ms` of the loop body. -/
def default_ms : Int := 250

/-- The test `ret == 0 || (ret == -1 && errno != ENOENT)` on the result of `stat`. -/
abbrev statBreaks (st : SysRet) : Prop := st.ret = 0 ∨ (st.ret = -1 ∧ st.errno ≠ ENOENT)

/-- The `while (1)` loop of `hfi_wait_for_device`, run for at most `fuel` iterations,
starting with iteration number `k`. -/
def waitLoop (env : WaitEnv) (timeout : Int) :
    Nat → Nat → Int → List Int → Outcome
  | 0, _, elapsed, sleeps => .running elapsed sleeps
  | fuel + 1, k, elapsed, sleeps =>
    let st := env.stat k
    if statBreaks st then
      .returned ⟨st.ret, st.errno, elapsed, sleeps, .statBreak⟩
    else if ¬ inLong (timeout - elapsed) then .undefined
    else if timeout - elapsed = 0 then
      .returned ⟨st.ret, ETIMEDOUT, elapsed, sleeps, .timedOut⟩
    else
      let ms := if timeout < 0 ∨ timeout - elapsed ≥ default_ms then default_ms else timeout
      if ¬ inLong (elapsed + ms) ∨ ¬ inLong (ms * 1000000) then .undefined
      else
        let sl := env.nanosleep k (ms * 1000000)
        if sl.ret = -1 then
          .returned ⟨sl.ret, sl.errno, elapsed + ms, sleeps ++ [ms], .sleepFailed⟩
        else waitLoop env timeout fuel (k + 1) (elapsed + ms) (sleeps ++ [ms])

/-- The function `hfi_wait_for_device(path, timeout)`, run for at most `fuel` iterations
of its loop.  A timeout of 0 stands for 15000 ms. -/
def hfi_wait_for_device (env : WaitEnv) (timeout : Int) (fuel : Nat) : Outcome :=
  let timeout := if timeout = 0 then 15000 else timeout
  waitLoop env timeout fuel 0 0 []

/-- A path that is never there and sleeps that always run to completion: every `stat`
fails with `ENOENT` and every `nanosleep` returns 0. -/
def neverAppears : WaitEnv where
  stat := fun _ => ⟨-1, ENOENT⟩
  nanosleep := fun _ _ => ⟨0, 0⟩

/-- A path that is there at the `n`-th check and not before, with sleeps that always run
to completion.  A successful `stat` leaves `errno` alone, so it still holds the `ENOENT` of
the failed checks. -/
def appearsAt (n : Nat) : WaitEnv where
  stat := fun k => if k < n then ⟨-1, ENOENT⟩ else ⟨0, ENOENT⟩
  nanosleep := fun _ _ => ⟨0, ENOENT⟩

/-! ## Constants of the headers and the attribute readers of opa_sysfs.c

`opa_service.h` and `opa_sysfs.c` are not part of the file under study.  The constants
this file takes from the header are parameters; the attribute readers are functions of an
environment.  Each reader hands back its C return value together with what it stored
through its output pointer. -/

/-- Constants that `opa_service.c` takes from its headers: the class path that attribute
paths start with, the largest port number of a unit, and the any-unit sentinel. -/
structure Config where
  HFI_CLASS_PATH : String
  HFI_MAX_PORT : Nat
  HFI_UNIT_ID_ANY : Int

/-- The attribute tree as the readers present it.  `port_read unit port attr` is
`hfi_sysfs_port_read` (return value, text stored to `*datap`), `port_read_s64` is
`hfi_sysfs_port_read_s64` (return value, number stored to `*valp`), `unit_read_s64` is
`hfi_sysfs_unit_read_s64`, and `unit_dir n` tells whether `stat` on the class path of
unit `n` succeeds and reports a directory. -/
structure Sysfs where
  port_read : Int → Int → String → Int × List Char
  port_read_s64 : Int → Int → String → Int × Int
  unit_read_s64 : Int → String → Int × Int
  unit_dir : Nat → Bool

/-- One request made to the attribute readers. -/
inductive Read where
  | port (unit port : Int) (attr : String)
  | port_s64 (unit port : Int) (attr : String)
  | unit_s64 (unit : Int) (attr : String)
  deriving DecidableEq, Repr

/-- The characters of a C string: what precedes the first NUL of the buffer. -/
def cstr (s : List Char) : List Char := s.takeWhile (fun c => c ≠ Char.ofNat 0)

/-- The libc function `strncmp`: compares at most `n` characters, a string ends at its
first NUL (or at the end of the list, where the terminator sits). -/
def strncmp : List Char → List Char → Nat → Int
  | _, _, 0 => 0
  | s1, s2, n + 1 =>
    let c1 := s1.headD (Char.ofNat 0)
    let c2 := s2.headD (Char.ofNat 0)
    if c1 ≠ c2 then (c1.toNat : Int) - (c2.toNat : Int)
    else if c1 = Char.ofNat 0 then 0
    else strncmp s1.tail s2.tail n

/-- The string literal "5: LinkUp" that `hfi_get_port_lid` compares `phys_state` with. -/
def linkUpMarker : List Char := ['5', ':', ' ', 'L', 'i', 'n', 'k', 'U', 'p']

/-! ## hfi_get_port_lid (lines 277-349) -/

/-- The function `hfi_get_port_lid(unit, port)`: its return value and the attribute reads
it issued, in order. -/
def hfi_get_port_lid (fs : Sysfs) (unit port : Int) : Int × List Read :=
  let r := fs.port_read unit port "phys_state"
  let ret : Int :=
    if r.1 = -1 then r.1
    else if strncmp r.2 linkUpMarker 9 ≠ 0 then -1
    else r.1
  if ret = -1 then (ret, [Read.port unit port "phys_state"])
  else
    let l := fs.port_read_s64 unit port "lid"
    let ret : Int := if l.1 = -1 then l.1 else toInt32 l.2
    (ret, [Read.port unit port "phys_state", Read.port_s64 unit port "lid"])

/-! ## hfi_get_num_units (lines 219-232) and hfi_get_num_contexts (lines 236-268) -/

/-- The probing loop of `hfi_get_num_units`, at most `fuel` probes starting with unit
`ret`; `none` when the fuel runs out or the `int` counter would overflow. -/
def numUnitsLoop (fs : Sysfs) : Nat → Nat → Option Nat
  | 0, _ => none
  | fuel + 1, ret =>
    if fs.unit_dir ret then
      if ret + 1 < 2 ^ 31 then numUnitsLoop fs fuel (ret + 1) else none
    else some ret

/-- The function `hfi_get_num_units()`, with at most `fuel` probes. -/
def hfi_get_num_units (fs : Sysfs) (fuel : Nat) : Option Nat := numUnitsLoop fs fuel 0

/-- The loop `for (p = 1; p <= HFI_MAX_PORT; p++) if (hfi_get_port_lid(unit, p) != -1)
break;` entered with port `p` and `remaining` ports left to try: whether it ended with
`p <= HFI_MAX_PORT`, and the reads issued. -/
def scanPorts (fs : Sysfs) (unit : Int) : Nat → Nat → Bool × List Read
  | 0, _ => (false, [])
  | remaining + 1, p =>
    let r := hfi_get_port_lid fs unit p
    if r.1 ≠ -1 then (true, r.2)
    else
      let s := scanPorts fs unit remaining (p + 1)
      (s.1, r.2 ++ s.2)

/-- What `hfi_get_num_contexts` does for one unit: scan the ports, and when the scan
stopped at a port and the `nctxts` read returns 0, `n += (uint32_t) val`.  Yields the new
`n` and the reads issued. -/
def contextsOfUnit (cfg : Config) (fs : Sysfs) (unit : Int) (n : Int) : Int × List Read :=
  let s := scanPorts fs unit cfg.HFI_MAX_PORT 1
  if s.1 then
    let v := fs.unit_read_s64 unit "nctxts"
    if v.1 = 0 then (toInt32 (toUInt32 n + toUInt32 v.2), s.2 ++ [Read.unit_s64 unit "nctxts"])
    else (n, s.2 ++ [Read.unit_s64 unit "nctxts"])
  else (n, s.2)

/-- The loop `for (u = 0; u < units; u++)` of the any-unit branch, entered with unit `u`
and `remaining` units to go. -/
def contextsOfUnits (cfg : Config) (fs : Sysfs) : Nat → Nat → Int → Int × List Read
  | 0, _, n => (n, [])
  | remaining + 1, u, n =>
    let r := contextsOfUnit cfg fs u n
    let s := contextsOfUnits cfg fs remaining (u + 1) r.1
    (s.1, r.2 ++ s.2)

/-- The function `hfi_get_num_contexts(unit_id)`: its return value and the attribute
reads it issued; `none` when `hfi_get_num_units` does not come back within `fuel`
probes. -/
def hfi_get_num_contexts (cfg : Config) (fs : Sysfs) (fuel : Nat) (unit_id : Int) :
    Option (Int × List Read) :=
  match hfi_get_num_units fs fuel with
  | none => none
  | some units =>
    if units > 0 then
      if unit_id = cfg.HFI_UNIT_ID_ANY then some (contextsOfUnits cfg fs units 0 0)
      else some (contextsOfUnit cfg fs unit_id 0)
    else some (0, [])

/-- The condition under which `hfi_get_port_lid(unit, p)` is not -1, in terms of the
attributes: `phys_state` is readable and begins with the link-up marker, and `lid` is
readable with a value that is not -1 as an `int`. -/
def portHasLid (fs : Sysfs) (unit p : Int) : Bool :=
  decide ((fs.port_read unit p "phys_state").1 ≠ -1) &&
  decide ((fs.port_read unit p "phys_state").2.take 9 = linkUpMarker) &&
  decide ((fs.port_read_s64 unit p "lid").1 ≠ -1) &&
  decide (toInt32 (fs.port_read_s64 unit p "lid").2 ≠ -1)

/-- Some port in `1..HFI_MAX_PORT` of the unit satisfies `portHasLid`. -/
def unitHasLid (cfg : Config) (fs : Sysfs) (unit : Int) : Bool :=
  (List.range' 1 cfg.HFI_MAX_PORT).any (fun (p : Nat) => portHasLid fs unit (p : Int))

/-- The `nctxts` value a unit contributes: its value when the unit satisfies `unitHasLid`
and the `nctxts` read succeeds (returns 0), and 0 otherwise. -/
def nctxtsOf (cfg : Config) (fs : Sysfs) (unit : Int) : Int :=
  if unitHasLid cfg fs unit = true ∧ (fs.unit_read_s64 unit "nctxts").1 = 0 then
    (fs.unit_read_s64 unit "nctxts").2
  else 0

/-- Constants for the examples: ports 1 and 2, any-unit sentinel -1. -/
def demoConfig : Config where
  HFI_CLASS_PATH := "/sys/class/infiniband/hfi1"
  HFI_MAX_PORT := 2
  HFI_UNIT_ID_ANY := -1

/-- An attribute tree with two units.  On both, port 1 reports "5: LinkUp" and port 2 does
not exist; the `lid` of port 1 is readable (value 7) on unit 0 and unreadable on unit 1;
`nctxts` is readable on both, with value 160. -/
def twoUnits : Sysfs where
  port_read := fun _ port attr =>
    if attr = "phys_state" ∧ port = 1 then (10, linkUpMarker ++ [Char.ofNat 10]) else (-1, [])
  port_read_s64 := fun unit port attr =>
    if attr = "lid" ∧ port = 1 ∧ unit = 0 then (0, 7) else (-1, 0)
  unit_read_s64 := fun _ attr => if attr = "nctxts" then (0, 160) else (-1, 0)
  unit_dir := fun n => decide (n < 2)

/-- An attribute tree in which every port reports "5: LinkUp" and every `lid` read succeeds
(returns 0) with the value `v`. -/
def linkUpWithLid (v : Int) : Sysfs where
  port_read := fun _ _ _ => (10, linkUpMarker ++ [Char.ofNat 10])
  port_read_s64 := fun _ _ _ => (0, v)
  unit_read_s64 := fun _ _ => (-1, 0)
  unit_dir := fun _ => false

/-! ## sscanf with the format of hfi_get_port_gid

`sscanf` belongs to libc.  The model below follows the description of the `x` conversion
in the C standard (white space is skipped, then an optional sign, an optional `0x` and
hexadecimal digits are read, the whole within the field width) for the one format string
the file uses.  Implementations differ on a `0x` that no digit follows: glibc and musl
convert it to zero, a literal reading of the standard makes it a matching failure.  The
flag `lenient0x` selects between the two and every theorem holds for both. -/

/-- The libc predicate `isspace` in the C locale. -/
def isspace (c : Char) : Bool := c.toNat = 32 ∨ (9 ≤ c.toNat ∧ c.toNat ≤ 13)

/-- Value of a hexadecimal digit, `none` for any other character. -/
def hexDigit (c : Char) : Option Nat :=
  if 48 ≤ c.toNat ∧ c.toNat ≤ 57 then some (c.toNat - 48)
  else if 97 ≤ c.toNat ∧ c.toNat ≤ 102 then some (c.toNat - 87)
  else if 65 ≤ c.toNat ∧ c.toNat ≤ 70 then some (c.toNat - 55)
  else none

/-- Reads hexadecimal digits while the width `w` lasts: the accumulated value, the number
of digits read, and the unread input. -/
def readHex : Nat → List Char → Nat → Nat → Nat × Nat × List Char
  | 0, s, acc, n => (acc, n, s)
  | _ + 1, [], acc, n => (acc, n, [])
  | w + 1, c :: s, acc, n =>
    match hexDigit c with
    | some d => readHex w s (16 * acc + d) (n + 1)
    | none => (acc, n, c :: s)

/-- Result of one conversion: the 32-bit pattern stored through the `unsigned *` argument
and the unread input, or a matching failure, or an input failure (end of input before
the conversion could start). -/
inductive Conv where
  | ok (val : Nat) (rest : List Char)
  | matchFail
  | inputFail
  deriving DecidableEq, Repr

/-- The pattern stored for the digits value `v`: negated modulo `2 ^ 32` after a minus. -/
def storeHex (neg : Bool) (v : Nat) : Nat := if neg then (2 ^ 32 - v % 2 ^ 32) % 2 ^ 32 else v % 2 ^ 32

/-- What follows the sign of an `x` conversion with `w` characters of width left: when
the input goes on with `0x` or `0X` and the width allows both characters they are read
and the digits are looked for behind them, otherwise the digits are looked for at once.
No digit at all is a matching failure, except behind a `0x`, where `lenient0x` decides. -/
def convHexBody (lenient0x : Bool) (neg : Bool) (w : Nat) (s : List Char) : Conv :=
  if 2 ≤ w ∧ s.head? = some '0' ∧ (s.tail.head? = some 'x' ∨ s.tail.head? = some 'X') then
    let r := readHex (w - 2) (s.drop 2) 0 0
    if r.2.1 = 0 then (if lenient0x then .ok 0 (s.drop 2) else .matchFail)
    else .ok (storeHex neg r.1) r.2.2
  else
    let r := readHex w s 0 0
    if r.2.1 = 0 then .matchFail else .ok (storeHex neg r.1) r.2.2

/-- The conversion `%<w>x` of `sscanf` applied to the input `s`. -/
def convHex (lenient0x : Bool) (w : Nat) (s : List Char) : Conv :=
  match s.dropWhile isspace with
  | [] => .inputFail
  | c :: t =>
    if c = '-' ∧ 0 < w then convHexBody lenient0x true (w - 1) t
    else if c = '+' ∧ 0 < w then convHexBody lenient0x false (w - 1) t
    else convHexBody lenient0x false w (c :: t)

/-- The directives `:%4x`, `n` times over: each needs a literal colon and then a
conversion; yields the number of values assigned so far and the values. -/
def scanColonHex (lenient0x : Bool) : Nat → List Char → List Nat → Int × List Nat
  | 0, _, acc => (acc.length, acc)
  | n + 1, ':' :: s, acc =>
    match convHex lenient0x 4 s with
    | .ok v rest => scanColonHex lenient0x n rest (acc ++ [v])
    | _ => (acc.length, acc)
  | _ + 1, _, acc => (acc.length, acc)

/-- The call `sscanf(gid_str, "%4x:%4x:%4x:%4x:%4x:%4x:%4x:%4x", ...)`: its return value
(the number of values assigned, or `EOF = -1`) and the values assigned, in order. -/
def sscanf_gid (lenient0x : Bool) (gid_str : List Char) : Int × List Nat :=
  match convHex lenient0x 4 (cstr gid_str) with
  | .ok v rest => scanColonHex lenient0x 7 rest [v]
  | .matchFail => (0, [])
  | .inputFail => (-1, [])

/-! ## hfi_get_port_gid (lines 356-394) -/

/-- The expression `(uint64_t) gid[k]`, where `gid[k]` is the `int` that holds the 32-bit
pattern `v`. -/
def gidWord (v : Nat) : Nat := toUInt64 (toInt32 v)

/-- The expression `(a << 48) | (b << 32) | (c << 16) | (d << 0)` on `uint64_t`. -/
def packGid (a b c d : Nat) : Nat :=
  ((gidWord a <<< 48) % 2 ^ 64) ||| ((gidWord b <<< 32) % 2 ^ 64) |||
    ((gidWord c <<< 16) % 2 ^ 64) ||| ((gidWord d <<< 0) % 2 ^ 64)

/-- Return value of `hfi_get_port_gid` and the contents of `*hi` and `*lo` afterwards. -/
structure GidResult where
  ret : Int
  hi : Nat
  lo : Nat
  deriving DecidableEq, Repr

/-- The function `hfi_get_port_gid(unit, port, hi, lo)`; `hi0` and `lo0` are what `*hi`
and `*lo` hold before the call. -/
def hfi_get_port_gid (lenient0x : Bool) (fs : Sysfs) (unit port : Int) (hi0 lo0 : Nat) :
    GidResult :=
  let r := fs.port_read unit port "gids/0"
  if r.1 = -1 then ⟨r.1, hi0, lo0⟩
  else
    let sc := sscanf_gid lenient0x r.2
    if sc.1 ≠ 8 then ⟨-1, hi0, lo0⟩
    else
      let gid := fun k => sc.2.getD k 0
      ⟨r.1, packGid (gid 0) (gid 1) (gid 2) (gid 3), packGid (gid 4) (gid 5) (gid 6) (gid 7)⟩

/-- Lower-case hexadecimal digit character of a value below 16. -/
def hexChar (d : Nat) : Char := if d < 10 then Char.ofNat (48 + d) else Char.ofNat (87 + d)

/-- The four lower-case hexadecimal digits of a 16-bit group, as `%04x` prints them. -/
def hex4 (g : Nat) : List Char :=
  [hexChar (g / 4096 % 16), hexChar (g / 256 % 16), hexChar (g / 16 % 16), hexChar (g % 16)]

/-- The canonical text of a GID: its groups as four hexadecimal digits each, separated by
colons. -/
def formatGid : List Nat → List Char
  | [] => []
  | [g] => hex4 g
  | g :: gs => hex4 g ++ ':' :: formatGid gs

/-- An attribute tree whose port text reads all return `ret` and the text `text`. -/
def sysfsWithText (ret : Int) (text : List Char) : Sysfs where
  port_read := fun _ _ _ => (ret, text)
  port_read_s64 := fun _ _ _ => (-1, 0)
  unit_read_s64 := fun _ _ => (-1, 0)
  unit_dir := fun _ => false

/-! ### The shape of a text that the format accepts

A description of the accepted texts that does not run the scanner: a field is white
space followed by at most four characters, namely an optional sign, an optional `0x` and
hexadecimal digits; the format needs a field and then seven times a colon and a field. -/

/-- The part of a field behind its sign: hexadecimal digits, at least one, or `0x`/`0X`
followed by hexadecimal digits (by at least one, unless `lenient0x`). -/
def IsHexBody (lenient0x : Bool) (body : List Char) : Prop :=
  (body ≠ [] ∧ ∀ c ∈ body, (hexDigit c).isSome = true) ∨
  (∃ x digits, body = '0' :: x :: digits ∧ (x = 'x' ∨ x = 'X') ∧
    (∀ c ∈ digits, (hexDigit c).isSome = true) ∧ (digits ≠ [] ∨ lenient0x = true))

/-- A field that one `%4x` reads: white space, an optional sign and a body, sign and body
together no longer than 4 characters. -/
def IsHexField (lenient0x : Bool) (f : List Char) : Prop :=
  ∃ ws sign body, f = ws ++ sign ++ body ∧ (∀ c ∈ ws, isspace c = true) ∧
    (sign = [] ∨ sign = ['+'] ∨ sign = ['-']) ∧ sign.length + body.length ≤ 4 ∧
    IsHexBody lenient0x body

/-- The text starts with `n` times a colon and a field. -/
def ColonFields (lenient0x : Bool) : Nat → List Char → Prop
  | 0, _ => True
  | n + 1, s => ∃ f rest, s = ':' :: (f ++ rest) ∧ IsHexField lenient0x f ∧
      ColonFields lenient0x n rest

/-- The text starts with 8 fields separated by colons; what follows is free. -/
def GidLead (lenient0x : Bool) (s : List Char) : Prop :=
  ∃ f rest, s = f ++ rest ∧ IsHexField lenient0x f ∧ ColonFields lenient0x 7 rest

/-! ## hfi_get_port_rate (lines 418-441) -/

/-- What the code observes of `strtod(data_rate, &newptr)`: whether the number compares
equal to zero, how many characters were consumed (`newptr - data_rate`), and the value of
`(int)(rate * 2)`. -/
structure Strtod where
  isZero : Bool
  consumed : Nat
  doubled : Int

/-- The function `hfi_get_port_rate(unit, port)`; `strtod` is the libc parser. -/
def hfi_get_port_rate (strtod : List Char → Strtod) (fs : Sysfs) (unit port : Int) : Int :=
  let r := fs.port_read unit port "rate"
  if r.1 = -1 then r.1
  else
    let d := strtod r.2
    if d.isZero ∧ d.consumed = 0 then r.1
    else d.doubled >>> 1

/-- What `strtod` reports for a text that does not start with a number: the value zero
and no character consumed. -/
def strtodNoNumber : List Char → Strtod := fun _ => ⟨true, 0, 0⟩

/-! ## Name lists (lines 535-594) -/

/-- The raw readers of the hfifs tree: `hfi_hfifs_read(attr, &data)` and
`hfi_hfifs_unit_read(unit, attr, &data)`, each with its return value and the text it
stored. -/
structure Hfifs where
  read : String → Int × List Char
  unit_read : Int → String → Int × List Char

/-- The function `hfi_count_names(namep)`: walks the string up to its NUL and counts the
newline characters.  The counter is an `int`; the texts it is applied to come from readers
that report their length as an `int`, so the count stays within the type. -/
def hfi_count_names : List Char → Int
  | [] => 0
  | c :: s =>
    if c = Char.ofNat 0 then 0
    else if c = Char.ofNat 10 then hfi_count_names s + 1
    else hfi_count_names s

/-- The function `hfi_get_stats_names(namep)`. -/
def hfi_get_stats_names (h : Hfifs) : Int :=
  let r := h.read "driver_stats_names"
  if r.1 < 0 then -1 else hfi_count_names r.2

/-- The function `hfi_get_ctrs_unit_names(unitno, namep)`. -/
def hfi_get_ctrs_unit_names (h : Hfifs) (unitno : Int) : Int :=
  let r := h.unit_read unitno "counter_names"
  if r.1 < 0 then -1 else hfi_count_names r.2

/-- The function `hfi_get_ctrs_port_names(unitno, namep)`. -/
def hfi_get_ctrs_port_names (h : Hfifs) (unitno : Int) : Int :=
  let r := h.unit_read unitno "portcounter_names"
  if r.1 < 0 then -1 else hfi_count_names r.2

/-- Raw readers that hand back `ret` and `text` for every attribute. -/
def hfifsWithText (ret : Int) (text : List Char) : Hfifs where
  read := fun _ => (ret, text)
  unit_read := fun _ _ => (ret, text)

/-! ## Congestion-control blobs (lines 608-683)

The two loaders use `open` and `read` directly.  A file is the list of its bytes; `open`
either fails or gives access to such a list, and `read(fd, buf, count)` on it transfers
the bytes from the file offset on, `count` of them or as many as are left. -/

/-- One byte. -/
abbrev Byte := Fin 256

/-- The files that `open(path, O_RDONLY)` can reach: `none` when the open fails. -/
structure Files where
  content : String → Option (List Byte)

/-- The bytes that `read` transfers from a file at offset `off` when asked for `count`;
the return value of `read` is their number. -/
def readAt (file : List Byte) (off count : Nat) : List Byte := (file.drop off).take count

/-- Storing `bytes` at the start of the buffer `buf`. -/
def store (buf bytes : List Byte) : List Byte := bytes ++ buf.drop bytes.length

/-- The bytes of a path string as `sprintf` writes them, with the closing NUL. -/
def pathBytes (path : String) : List Byte :=
  path.toList.map (fun c => (⟨c.toNat % 256, Nat.mod_lt _ (by decide)⟩ : Byte)) ++ [0]

/-- The path `HFI_CLASS_PATH "_%d/ports/%d/CCMgtA/cc_settings_bin"`. -/
def ccSettingsPath (cfg : Config) (unit port : Int) : String :=
  cfg.HFI_CLASS_PATH ++ "_" ++ toString unit ++ "/ports/" ++ toString port ++
    "/CCMgtA/cc_settings_bin"

/-- The path `HFI_CLASS_PATH "_%d/ports/%d/CCMgtA/cc_table_bin"`. -/
def ccTablePath (cfg : Config) (unit port : Int) : String :=
  cfg.HFI_CLASS_PATH ++ "_" ++ toString unit ++ "/ports/" ++ toString port ++
    "/CCMgtA/cc_table_bin"

/-- The function `hfi_get_cc_settings_bin(unit, port, ccabuf)`: its return value and the
contents of the caller's buffer afterwards.  The buffer is taken to be large enough for
the path and for the record, as the C function requires. -/
def hfi_get_cc_settings_bin (cfg : Config) (files : Files) (unit port : Int)
    (ccabuf : List Byte) : Int × List Byte :=
  let path := ccSettingsPath cfg unit port
  let ccabuf := store ccabuf (pathBytes path)
  match files.content path with
  | none => (0, ccabuf)
  | some file =>
    let count : Nat := 4 + 2 + (32 * 6)
    let got := readAt file 0 count
    let ccabuf := store ccabuf got
    if got.length ≠ count then (0, ccabuf) else (1, ccabuf)

/-- The 16-bit value of two bytes in memory order on a little-endian machine (x86-64, the
platform of the hfi1 driver). -/
def le16 : List Byte → Nat
  | b0 :: b1 :: _ => b0.val + 256 * b1.val
  | [b0] => b0.val
  | [] => 0

/-- The `uint16_t` array that a byte sequence forms in memory: consecutive pairs. -/
def le16s : List Byte → List Nat
  | b0 :: b1 :: rest => (b0.val + 256 * b1.val) :: le16s rest
  | _ => []

/-- The function `hfi_get_cc_table_bin(unit, port, cctp)`: its return value and what
`*cctp` holds afterwards (`none` for the null pointer, otherwise the entries of the
table).  The variable `int ccti_limit` has no initialiser and `read(fd, &ccti_limit, 2)`
fills only its two low bytes: `stack` is the 32-bit pattern the variable holds before the
read, whose two high bytes stay.  `mallocOk` tells whether `malloc` succeeds. -/
def hfi_get_cc_table_bin (cfg : Config) (files : Files) (stack : Nat) (mallocOk : Bool)
    (unit port : Int) : Int × Option (List Nat) :=
  match files.content (ccTablePath cfg unit port) with
  | none => (0, none)
  | some file =>
    let got := readAt file 0 2
    if got.length ≠ 2 then (0, none)
    else
      let ccti_limit : Int := toInt32 ((stack / 65536 % 65536 * 65536 + le16 got : Nat) : Int)
      if ccti_limit < 63 ∨ ccti_limit > 65535 then (0, none)
      else
        let i : Int := (ccti_limit + 1) * 2
        if ¬ mallocOk then (-1, none)
        else
          let cct := readAt file 2 i.toNat
          if (cct.length : Int) ≠ i then (0, none)
          else (ccti_limit, some (le16s cct))

/-- A file system in which every path opens to the file `file`. -/
def filesWith (file : List Byte) : Files where
  content := fun _ => some file

/-! ## Theorems on hfi_wait_for_device -/

/-- Invariant of the polling loop under a negative timeout: `elapsed` stays non-negative, so
`timeout - elapsed` is never zero, every sleep is 250 ms, and a return comes from the `stat`
break or from a failed sleep. -/
theorem waitLoop_negative (env : WaitEnv) (t : Int) (ht : t < 0) :
    ∀ (fuel k : Nat) (elapsed : Int) (sleeps : List Int), 0 ≤ elapsed →
      (∀ ms ∈ sleeps, ms = 250) →
      (∀ r, waitLoop env t fuel k elapsed sleeps = .returned r →
        (∀ ms ∈ r.sleeps, ms = 250) ∧
        ((r.exit = .statBreak ∧ ∃ j, statBreaks (env.stat j) ∧ r.ret = (env.stat j).ret ∧
            r.errno = (env.stat j).errno) ∨
         (r.exit = .sleepFailed ∧ ∃ j, (env.nanosleep j 250000000).ret = -1 ∧ r.ret = -1 ∧
            r.errno = (env.nanosleep j 250000000).errno))) ∧
      (∀ e s, waitLoop env t fuel k elapsed sleeps = .running e s → ∀ ms ∈ s, ms = 250) := by
  intro fuel
  induction fuel with
  | zero =>
    intro k elapsed sleeps _ hs
    refine ⟨?_, ?_⟩
    · intro r h; simp [waitLoop] at h
    · intro e s h
      simp only [waitLoop, Outcome.running.injEq] at h
      rw [← h.2]; exact hs
  | succ n ih =>
    intro k elapsed sleeps h0 hs
    have hs2 : ∀ ms ∈ sleeps ++ [(250 : Int)], ms = 250 := by
      intro ms hm
      rcases List.mem_append.1 hm with h | h
      · exact hs ms h
      · simpa using h
    have hne : t - elapsed ≠ 0 := by omega
    simp only [waitLoop, default_ms, ht, true_or, if_true, hne, if_false]
    norm_num only
    by_cases h1 : statBreaks (env.stat k)
    · rw [if_pos h1]
      refine ⟨?_, ?_⟩
      · intro r h
        cases h
        exact ⟨hs, Or.inl ⟨rfl, k, h1, rfl, rfl⟩⟩
      · intro e s h; cases h
    · rw [if_neg h1]
      by_cases h2 : ¬ inLong (t - elapsed)
      · rw [if_pos h2]
        exact ⟨fun r h => (by cases h), fun e s h => (by cases h)⟩
      · rw [if_neg h2]
        by_cases h3 : ¬ inLong (elapsed + 250) ∨ ¬ inLong 250000000
        · rw [if_pos h3]
          exact ⟨fun r h => (by cases h), fun e s h => (by cases h)⟩
        · rw [if_neg h3]
          by_cases h4 : (env.nanosleep k 250000000).ret = -1
          · rw [if_pos h4]
            refine ⟨?_, ?_⟩
            · intro r h
              cases h
              exact ⟨hs2, Or.inr ⟨rfl, k, h4, h4, rfl⟩⟩
            · intro e s h; cases h
          · rw [if_neg h4]
            exact ih (k + 1) (elapsed + 250) (sleeps ++ [250]) (by omega) hs2

/-- C9: with a negative timeout `hfi_wait_for_device` never leaves its loop through the
timed-out branch.  However long it runs, every sleep it requests is 250 ms, and when it
returns it does so either because a `stat` call stopped reporting not-found (it returns
that call's result and errno) or because a `nanosleep` call failed (it returns -1 with
that call's errno). -/
theorem hfi_wait_for_device_negative_timeout (env : WaitEnv) (t : Int) (ht : t < 0)
    (fuel : Nat) :
    (∀ r, hfi_wait_for_device env t fuel = .returned r →
      r.exit ≠ .timedOut ∧ (∀ ms ∈ r.sleeps, ms = 250) ∧
      ((r.exit = .statBreak ∧ ∃ j, statBreaks (env.stat j) ∧ r.ret = (env.stat j).ret ∧
          r.errno = (env.stat j).errno) ∨
       (r.exit = .sleepFailed ∧ ∃ j, (env.nanosleep j 250000000).ret = -1 ∧ r.ret = -1 ∧
          r.errno = (env.nanosleep j 250000000).errno))) ∧
    (∀ e s, hfi_wait_for_device env t fuel = .running e s → ∀ ms ∈ s, ms = 250) := by
  have hne : t ≠ 0 := by omega
  have h := waitLoop_negative env t ht fuel 0 0 [] (le_refl 0) (by simp)
  simp only [hfi_wait_for_device, hne, if_false]
  refine ⟨?_, h.2⟩
  intro r hr
  obtain ⟨hs, hc⟩ := h.1 r hr
  refine ⟨?_, hs, hc⟩
  rcases hc with hc | hc
  · rw [hc.1]; decide
  · rw [hc.1]; decide

/-- Witness for C9: with timeout -1 and a path that is there at the third check the call
returns 0 after two sleeps of 250 ms, through the `stat` break. -/
theorem hfi_wait_for_device_negative_timeout_witness :
    (-1 : Int) < 0 ∧
    hfi_wait_for_device (appearsAt 2) (-1) 5 =
      .returned ⟨0, ENOENT, 500, [250, 250], .statBreak⟩ ∧
    (⟨0, ENOENT, 500, [250, 250], .statBreak⟩ : WaitResult).exit ≠ .timedOut :=
  ⟨by decide, by decide,
    ((hfi_wait_for_device_negative_timeout (appearsAt 2) (-1) (by decide) 5).1 _
      (by decide)).1⟩

/-- Once `elapsed` has passed a positive timeout, a path that never appears keeps the loop
going for ever: each further sleep is the whole timeout and the difference never returns to
zero. -/
theorem waitLoop_overshoot (t : Int) (ht : 0 < t) :
    ∀ (fuel k : Nat) (elapsed : Int) (sleeps : List Int), t < elapsed →
      ∀ r, waitLoop neverAppears t fuel k elapsed sleeps ≠ .returned r := by
  intro fuel
  induction fuel with
  | zero => intro k elapsed sleeps _ r h; simp [waitLoop] at h
  | succ n ih =>
    intro k elapsed sleeps h0 r
    have h1 : ¬ statBreaks (neverAppears.stat k) := by simp [statBreaks, neverAppears]
    have hne : t - elapsed ≠ 0 := by omega
    have hms : ¬ (t < 0 ∨ t - elapsed ≥ default_ms) := by simp only [default_ms]; omega
    simp only [waitLoop, h1, if_false, hne, hms]
    by_cases h2 : ¬ inLong (t - elapsed)
    · rw [if_pos h2]; intro h; cases h
    · rw [if_neg h2]
      by_cases h3 : ¬ inLong (elapsed + t) ∨ ¬ inLong (t * 1000000)
      · rw [if_pos h3]; intro h; cases h
      · rw [if_neg h3]
        have h4 : ¬ (neverAppears.nanosleep k (t * 1000000)).ret = -1 := by
          simp [neverAppears]
        rw [if_neg h4]
        exact ih (k + 1) (elapsed + t) (sleeps ++ [t]) (by omega) r

/-- C1, the failing run: with timeout 300 ms, a path that never appears and sleeps that
always complete, the first sleep is 250 ms, every later sleep is 300 ms (the whole timeout,
not the 50 ms that remain), `elapsed` jumps from 250 to 550 and beyond, the test
`timeout - elapsed == 0` never holds, and the call never returns. -/
theorem hfi_wait_for_device_300_never_returns :
    (∀ fuel r, hfi_wait_for_device neverAppears 300 fuel ≠ .returned r) ∧
    hfi_wait_for_device neverAppears 300 3 = .running 850 [250, 300, 300] := by
  refine ⟨?_, by decide⟩
  intro fuel r
  match fuel with
  | 0 => intro h; simp [hfi_wait_for_device, waitLoop] at h
  | 1 =>
    intro h
    simp [hfi_wait_for_device, waitLoop, neverAppears, statBreaks, default_ms, inLong,
      LONG_MIN, LONG_MAX, ENOENT] at h
  | n + 2 =>
    have h := waitLoop_overshoot 300 (by decide) n 2 550 [250, 300] (by decide) r
    have e : hfi_wait_for_device neverAppears 300 (n + 2) =
        waitLoop neverAppears 300 n 2 550 [250, 300] := by
      simp [hfi_wait_for_device, waitLoop, neverAppears, statBreaks, default_ms, inLong,
        LONG_MIN, LONG_MAX, ENOENT]
    rw [e]; exact h

/-- With a timeout above 250 that is no multiple of 250 the loop on a path that never
appears does not return: `elapsed` climbs in steps of 250 without meeting the timeout and
then passes it. -/
theorem waitLoop_never_returns (t : Int) (ht : 250 < t) (hm : t % 250 ≠ 0) :
    ∀ (fuel k : Nat) (elapsed : Int) (sleeps : List Int),
      ((0 ≤ elapsed ∧ elapsed < t ∧ elapsed % 250 = 0) ∨ t < elapsed) →
      ∀ r, waitLoop neverAppears t fuel k elapsed sleeps ≠ .returned r := by
  intro fuel
  induction fuel with
  | zero => intro k elapsed sleeps _ r h; simp [waitLoop] at h
  | succ n ih =>
    intro k elapsed sleeps hinv r
    rcases hinv with ⟨h0, h1, h2⟩ | h
    · have hb : ¬ statBreaks (neverAppears.stat k) := by simp [statBreaks, neverAppears]
      have hne : t - elapsed ≠ 0 := by omega
      simp only [waitLoop, hb, if_false, hne]
      by_cases hq : ¬ inLong (t - elapsed)
      · rw [if_pos hq]; intro h; cases h
      · rw [if_neg hq]
        by_cases hms : t < 0 ∨ t - elapsed ≥ default_ms
        · rw [if_pos hms]
          by_cases h3 : ¬ inLong (elapsed + default_ms) ∨ ¬ inLong (default_ms * 1000000)
          · rw [if_pos h3]; intro h; cases h
          · rw [if_neg h3]
            have h4 : ¬ (neverAppears.nanosleep k (default_ms * 1000000)).ret = -1 := by
              simp [neverAppears]
            rw [if_neg h4]
            refine ih (k + 1) (elapsed + default_ms) (sleeps ++ [default_ms]) (Or.inl ?_) r
            simp only [default_ms] at hms ⊢
            omega
        · rw [if_neg hms]
          by_cases h3 : ¬ inLong (elapsed + t) ∨ ¬ inLong (t * 1000000)
          · rw [if_pos h3]; intro h; cases h
          · rw [if_neg h3]
            have h4 : ¬ (neverAppears.nanosleep k (t * 1000000)).ret = -1 := by
              simp [neverAppears]
            rw [if_neg h4]
            refine ih (k + 1) (elapsed + t) (sleeps ++ [t]) (Or.inr ?_) r
            simp only [default_ms] at hms
            omega
    · exact waitLoop_overshoot t (by omega) (n + 1) k elapsed sleeps h r

/-- With sleeps that always return 0, the call does not return on a path that never
appears when the timeout is above 250 ms and no multiple of 250 ms.  (A libc `nanosleep`
returns 0 for the requests made here as long as the timeout is below 1000 ms; from 1000 ms
on the request of the whole timeout has `tv_nsec` beyond its range.) -/
theorem hfi_wait_for_device_never_returns (t : Int) (ht : 250 < t) (hm : t % 250 ≠ 0)
    (fuel : Nat) (r : WaitResult) :
    hfi_wait_for_device neverAppears t fuel ≠ .returned r := by
  have hne : t ≠ 0 := by omega
  simp only [hfi_wait_for_device, hne, if_false]
  exact waitLoop_never_returns t ht hm fuel 0 0 [] (Or.inl ⟨le_refl 0, by omega, by decide⟩) r

/-- With a timeout of `250 * q` ms the loop on a path that never appears, entered with
`elapsed = 250 * j`, takes the remaining `q - j` sleeps of 250 ms and leaves through the
timed-out branch. -/
theorem waitLoop_multiple_times_out (q : Nat) (hq : (250 * q : Int) ≤ LONG_MAX) :
    ∀ (d fuel k j : Nat) (sleeps : List Int), j + d = q → 0 < q → d + 1 ≤ fuel →
      waitLoop neverAppears (250 * q) fuel k (250 * j) sleeps =
        .returned ⟨-1, ETIMEDOUT, 250 * q, sleeps ++ List.replicate d 250, .timedOut⟩ := by
  intro d
  induction d with
  | zero =>
    intro fuel k j sleeps hj _ hf
    obtain ⟨n, rfl⟩ : ∃ n, fuel = n + 1 := ⟨fuel - 1, by omega⟩
    have hjq : j = q := by omega
    subst hjq
    have hb : ¬ statBreaks (neverAppears.stat k) := by simp [statBreaks, neverAppears]
    have hl : inLong ((250 : Int) * j - 250 * j) := by
      simp only [inLong, LONG_MIN, LONG_MAX, sub_self]; decide
    unfold waitLoop
    simp only
    rw [if_neg hb, if_neg (not_not.2 hl), if_pos (sub_self _)]
    simp [neverAppears]
  | succ d ih =>
    intro fuel k j sleeps hj hpos hf
    obtain ⟨n, rfl⟩ : ∃ n, fuel = n + 1 := ⟨fuel - 1, by omega⟩
    have hb : ¬ statBreaks (neverAppears.stat k) := by simp [statBreaks, neverAppears]
    have hjq : (250 : Int) * q - 250 * j = 250 * (d + 1) := by
      have : (q : Int) = j + (d + 1) := by exact_mod_cast hj.symm
      rw [this]; ring
    have hd0 : (0 : Int) ≤ d := Int.ofNat_nonneg d
    have hj0 : (0 : Int) ≤ j := Int.ofNat_nonneg j
    have hqj : (q : Int) = j + (d + 1) := by exact_mod_cast hj.symm
    simp only [LONG_MAX] at hq
    have hl : inLong ((250 : Int) * q - 250 * j) := by
      simp only [inLong, LONG_MIN, LONG_MAX]; omega
    have hne : (250 : Int) * q - 250 * j ≠ 0 := by omega
    have hms : (250 : Int) * q < 0 ∨ (250 : Int) * q - 250 * j ≥ default_ms := by
      right; simp only [default_ms]; omega
    have h3 : ¬ (¬ inLong ((250 : Int) * j + default_ms) ∨
        ¬ inLong (default_ms * 1000000)) := by
      simp only [inLong, LONG_MIN, LONG_MAX, default_ms]; omega
    have h4 : ¬ (neverAppears.nanosleep k (default_ms * 1000000)).ret = -1 := by
      simp [neverAppears]
    have e : (250 : Int) * j + default_ms = 250 * ((j + 1 : Nat) : Int) := by
      simp only [default_ms]; push_cast; ring
    unfold waitLoop
    simp only
    rw [if_neg hb, if_neg (not_not.2 hl), if_neg hne, if_pos hms, if_neg h3, if_neg h4, e,
      ih n (k + 1) (j + 1) (sleeps ++ [default_ms]) (by omega) hpos (by omega)]
    simp [default_ms, List.replicate_succ]

/-- A timeout that is a positive multiple of 250 ms is honoured: the call returns -1 with
`ETIMEDOUT` and `elapsed` equal to the timeout. -/
theorem hfi_wait_for_device_multiple_times_out (q fuel : Nat) (hpos : 0 < q)
    (hq : (250 * q : Int) ≤ LONG_MAX) (hf : q + 1 ≤ fuel) :
    hfi_wait_for_device neverAppears (250 * q) fuel =
      .returned ⟨-1, ETIMEDOUT, 250 * q, List.replicate q 250, .timedOut⟩ := by
  have hne : (250 : Int) * q ≠ 0 := by
    have : (0 : Int) < q := by exact_mod_cast hpos
    omega
  have h := waitLoop_multiple_times_out q hq q fuel 0 0 [] (by omega) hpos hf
  simp only [hfi_wait_for_device, hne, if_false]
  simpa using h

/-- A positive timeout below 250 ms is honoured: one sleep of the whole timeout, then -1
with `ETIMEDOUT`. -/
theorem hfi_wait_for_device_short_times_out (t : Int) (h0 : 0 < t) (h1 : t < 250)
    (fuel : Nat) (hf : 2 ≤ fuel) :
    hfi_wait_for_device neverAppears t fuel =
      .returned ⟨-1, ETIMEDOUT, t, [t], .timedOut⟩ := by
  obtain ⟨n, rfl⟩ : ∃ n, fuel = n + 2 := ⟨fuel - 2, by omega⟩
  have hne : t ≠ 0 := by omega
  have hb : ∀ k, ¬ statBreaks (neverAppears.stat k) := by
    intro k; simp [statBreaks, neverAppears]
  have hl : inLong (t - 0) := by simp only [inLong, LONG_MIN, LONG_MAX]; omega
  have hne2 : t - 0 ≠ 0 := by omega
  have hms : ¬ (t < 0 ∨ t - 0 ≥ default_ms) := by simp only [default_ms]; omega
  have h3 : ¬ (¬ inLong (0 + t) ∨ ¬ inLong (t * 1000000)) := by
    simp only [inLong, LONG_MIN, LONG_MAX]; omega
  have h4 : ∀ k, ¬ (neverAppears.nanosleep k (t * 1000000)).ret = -1 := by
    intro k; simp [neverAppears]
  have hl2 : inLong (t - (0 + t)) := by simp only [inLong, LONG_MIN, LONG_MAX]; omega
  have hz : t - (0 + t) = 0 := by omega
  simp only [hfi_wait_for_device, hne, if_false]
  unfold waitLoop
  simp only
  rw [if_neg (hb 0), if_neg (not_not.2 hl), if_neg hne2, if_neg hms, if_neg h3, if_neg (h4 0)]
  unfold waitLoop
  simp only
  rw [if_neg (hb _), if_neg (not_not.2 hl2), if_pos hz]
  simp [neverAppears]

/-- Under a negative timeout no `long` operation of the loop overflows as long as `250 *
fuel` more milliseconds fit. -/
theorem waitLoop_negative_defined (env : WaitEnv) (t : Int) (ht : t < 0) :
    ∀ (fuel k : Nat) (elapsed : Int) (sleeps : List Int), 0 ≤ elapsed →
      LONG_MIN + elapsed + 250 * fuel ≤ t → elapsed + 250 * fuel ≤ LONG_MAX →
      waitLoop env t fuel k elapsed sleeps ≠ .undefined := by
  intro fuel
  induction fuel with
  | zero => intro k elapsed sleeps _ _ _ h; simp [waitLoop] at h
  | succ n ih =>
    intro k elapsed sleeps h0 h1 h2
    push_cast at h1 h2
    have hn0 : (0 : Int) ≤ n := Int.ofNat_nonneg n
    have hl : inLong (t - elapsed) := by
      simp only [inLong, LONG_MIN, LONG_MAX] at h1 h2 ⊢; omega
    have hne : t - elapsed ≠ 0 := by omega
    have hms : t < 0 ∨ t - elapsed ≥ default_ms := Or.inl ht
    have h3 : ¬ (¬ inLong (elapsed + default_ms) ∨ ¬ inLong (default_ms * 1000000)) := by
      simp only [inLong, LONG_MIN, LONG_MAX, default_ms] at h1 h2 ⊢; omega
    unfold waitLoop
    simp only
    by_cases hb : statBreaks (env.stat k)
    · rw [if_pos hb]; intro h; cases h
    · rw [if_neg hb, if_neg (not_not.2 hl), if_neg hne, if_pos hms, if_neg h3]
      by_cases h4 : (env.nanosleep k (default_ms * 1000000)).ret = -1
      · rw [if_pos h4]; intro h; cases h
      · rw [if_neg h4]
        refine ih (k + 1) (elapsed + default_ms) (sleeps ++ [default_ms]) ?_ ?_ ?_
        · simp only [default_ms]; omega
        · simp only [default_ms]; omega
        · simp only [default_ms]; omega

/-- Under a negative timeout a run of `fuel` iterations stays within the range of `long`
when `250 * fuel` milliseconds fit on both sides. -/
theorem hfi_wait_for_device_negative_defined (env : WaitEnv) (t : Int) (ht : t < 0)
    (fuel : Nat) (h1 : LONG_MIN + 250 * fuel ≤ t) (h2 : (250 * fuel : Int) ≤ LONG_MAX) :
    hfi_wait_for_device env t fuel ≠ .undefined := by
  have hne : t ≠ 0 := by omega
  simp only [hfi_wait_for_device, hne, if_false]
  exact waitLoop_negative_defined env t ht fuel 0 0 [] (le_refl 0) (by omega) (by omega)

/-! ## Theorems on hfi_get_port_lid -/

/-- Characters with the same code are equal. -/
theorem char_toNat_inj {a b : Char} (h : a.toNat = b.toNat) : a = b := by
  rw [← Char.ofNat_toNat a, ← Char.ofNat_toNat b, h]

/-- For a NUL-free string `m`, `strncmp s m (length m)` is zero exactly when `s` starts with
`m`. -/
theorem strncmp_eq_zero_iff (m : List Char) (hm : ∀ c ∈ m, c ≠ Char.ofNat 0) :
    ∀ s : List Char, strncmp s m m.length = 0 ↔ s.take m.length = m := by
  induction m with
  | nil => intro s; simp [strncmp]
  | cons c m ih =>
    intro s
    have hc : c ≠ Char.ofNat 0 := hm c (List.mem_cons_self _ _)
    have ih2 := ih (fun d hd => hm d (List.mem_cons_of_mem _ hd))
    cases s with
    | nil =>
      have this : Char.ofNat 0 ≠ c := fun h => hc h.symm
      have hc0 : ¬ c.toNat = 0 :=
        fun h => hc (char_toNat_inj (h.trans (by decide : (0 : Nat) = (Char.ofNat 0).toNat)))
      simp [strncmp, this, hc0]
    | cons a s =>
      by_cases hac : a = c
      · subst hac
        simp [strncmp, hc, ih2 s]
      · have hn : (a.toNat : Int) - (c.toNat : Int) ≠ 0 := by
          intro h
          have h2 : a.toNat = c.toNat := by omega
          exact hac (char_toNat_inj h2)
        simp [strncmp, hac, hn]

/-- The comparison in `hfi_get_port_lid` succeeds exactly when the first 9 characters are
the marker. -/
theorem strncmp_linkUp (s : List Char) :
    strncmp s linkUpMarker 9 = 0 ↔ s.take 9 = linkUpMarker :=
  strncmp_eq_zero_iff linkUpMarker (by decide) s

/-- Conversion to `int` leaves a value of the `int` range alone. -/
theorem toInt32_of_inInt32 (v : Int) (h : inInt32 v) : toInt32 v = v := by
  unfold toInt32; unfold inInt32 at h; omega

/-- The function `hfi_get_port_lid` in closed form, with the `strncmp` test expressed on the
first 9 characters. -/
theorem hfi_get_port_lid_eq (fs : Sysfs) (unit port : Int) :
    hfi_get_port_lid fs unit port =
      if (fs.port_read unit port "phys_state").1 = -1 ∨
          (fs.port_read unit port "phys_state").2.take 9 ≠ linkUpMarker then
        (-1, [Read.port unit port "phys_state"])
      else
        (if (fs.port_read_s64 unit port "lid").1 = -1 then -1
          else toInt32 (fs.port_read_s64 unit port "lid").2,
         [Read.port unit port "phys_state", Read.port_s64 unit port "lid"]) := by
  by_cases h1 : (fs.port_read unit port "phys_state").1 = -1
  · simp [hfi_get_port_lid, h1]
  · by_cases h2 : (fs.port_read unit port "phys_state").2.take 9 = linkUpMarker
    · have h3 : strncmp (fs.port_read unit port "phys_state").2 linkUpMarker 9 = 0 :=
        (strncmp_linkUp _).2 h2
      by_cases hl : (fs.port_read_s64 unit port "lid").1 = -1
      · simp [hfi_get_port_lid, h1, h2, h3, hl]
      · simp [hfi_get_port_lid, h1, h2, h3, hl]
    · have h3 : strncmp (fs.port_read unit port "phys_state").2 linkUpMarker 9 ≠ 0 :=
        fun h0 => h2 ((strncmp_linkUp _).1 h0)
      simp [hfi_get_port_lid, h1, h2, h3]

/-- C8, amended: link gating of `hfi_get_port_lid`.  When the `phys_state` read fails
(returns -1) or its text does not have "5: LinkUp" as its first 9 characters, the call
returns -1 and the only read it issued is that of `phys_state`: no read of `lid` is
requested.  When the first 9 characters are the marker, `lid` is read next; a failed `lid`
read gives -1 and a successful read of the value `v` gives `v` converted to the `int`
return type (`ret = val` on an `int64_t`), which is `v` itself exactly for the values an
`int` can hold, 0 included. -/
theorem hfi_get_port_lid_link_gating (fs : Sysfs) (unit port : Int) :
    (((fs.port_read unit port "phys_state").1 = -1 ∨
        (fs.port_read unit port "phys_state").2.take 9 ≠ linkUpMarker) →
      hfi_get_port_lid fs unit port = (-1, [Read.port unit port "phys_state"]) ∧
      Read.port_s64 unit port "lid" ∉ (hfi_get_port_lid fs unit port).2) ∧
    (((fs.port_read unit port "phys_state").1 ≠ -1 ∧
        (fs.port_read unit port "phys_state").2.take 9 = linkUpMarker) →
      (hfi_get_port_lid fs unit port).2 =
        [Read.port unit port "phys_state", Read.port_s64 unit port "lid"] ∧
      ((fs.port_read_s64 unit port "lid").1 = -1 → (hfi_get_port_lid fs unit port).1 = -1) ∧
      ((fs.port_read_s64 unit port "lid").1 ≠ -1 →
        (hfi_get_port_lid fs unit port).1 = toInt32 (fs.port_read_s64 unit port "lid").2 ∧
        (inInt32 (fs.port_read_s64 unit port "lid").2 →
          (hfi_get_port_lid fs unit port).1 = (fs.port_read_s64 unit port "lid").2))) := by
  rw [hfi_get_port_lid_eq]
  refine ⟨?_, ?_⟩
  · intro h
    rw [if_pos h]
    exact ⟨rfl, by simp⟩
  · rintro ⟨h1, h2⟩
    have hn : ¬ ((fs.port_read unit port "phys_state").1 = -1 ∨
        (fs.port_read unit port "phys_state").2.take 9 ≠ linkUpMarker) := by
      rintro (h | h)
      · exact h1 h
      · exact h h2
    rw [if_neg hn]
    refine ⟨rfl, ?_, ?_⟩
    · intro hl; simp [hl]
    · intro hl
      refine ⟨by simp [hl], fun hr => ?_⟩
      simp [hl, toInt32_of_inInt32 _ hr]

/-- Witness for C8 (amended): with the link up and a `lid` read of 0, the call reads
`phys_state` and `lid` and returns 0. -/
theorem hfi_get_port_lid_link_gating_witness :
    ((linkUpWithLid 0).port_read 0 1 "phys_state").1 ≠ -1 ∧
    ((linkUpWithLid 0).port_read 0 1 "phys_state").2.take 9 = linkUpMarker ∧
    (hfi_get_port_lid (linkUpWithLid 0) 0 1).2 =
      [Read.port 0 1 "phys_state", Read.port_s64 0 1 "lid"] ∧
    (hfi_get_port_lid (linkUpWithLid 0) 0 1).1 = 0 :=
  ⟨by decide, by decide,
    ((hfi_get_port_lid_link_gating (linkUpWithLid 0) 0 1).2 ⟨by decide, by decide⟩).1,
    (((hfi_get_port_lid_link_gating (linkUpWithLid 0) 0 1).2 ⟨by decide, by decide⟩).2.2
      (by decide)).2 (by decide)⟩

/-- C8 as stated fails: with the link up, a successful `lid` read of 4294967295 is returned
as -1 and a successful `lid` read of 4294967301 is returned as 5, since `ret = val` cuts
the 64-bit value to the 32-bit `int`. -/
theorem hfi_get_port_lid_cuts_to_int :
    ((linkUpWithLid 4294967295).port_read 0 1 "phys_state").2.take 9 = linkUpMarker ∧
    (linkUpWithLid 4294967295).port_read_s64 0 1 "lid" = (0, 4294967295) ∧
    (hfi_get_port_lid (linkUpWithLid 4294967295) 0 1).1 = -1 ∧
    (hfi_get_port_lid (linkUpWithLid 4294967295) 0 1).1 ≠ 4294967295 ∧
    (linkUpWithLid 4294967301).port_read_s64 0 1 "lid" = (0, 4294967301) ∧
    (hfi_get_port_lid (linkUpWithLid 4294967301) 0 1).1 = 5 ∧
    (hfi_get_port_lid (linkUpWithLid 4294967301) 0 1).1 ≠ 4294967301 := by
  decide

/-! ## Theorems on hfi_get_num_contexts -/

/-- The test `hfi_get_port_lid(unit, p) != -1` in terms of the attributes. -/
theorem hfi_get_port_lid_ne_iff (fs : Sysfs) (unit p : Int) :
    (hfi_get_port_lid fs unit p).1 ≠ -1 ↔ portHasLid fs unit p = true := by
  rw [hfi_get_port_lid_eq]
  by_cases h1 : (fs.port_read unit p "phys_state").1 = -1
  · simp [portHasLid, h1]
  · by_cases h2 : (fs.port_read unit p "phys_state").2.take 9 = linkUpMarker
    · by_cases h3 : (fs.port_read_s64 unit p "lid").1 = -1
      · simp [portHasLid, h1, h2, h3]
      · simp [portHasLid, h1, h2, h3]
    · simp [portHasLid, h1, h2]

/-- The port function never reads a unit attribute. -/
theorem hfi_get_port_lid_reads (fs : Sysfs) (unit p : Int) (u : Int) (a : String) :
    Read.unit_s64 u a ∉ (hfi_get_port_lid fs unit p).2 := by
  unfold hfi_get_port_lid
  simp only
  split_ifs <;> simp

/-- The port scan stops at a port exactly when some port from `p` on, among the `remaining`
next ones, has a LID; it reads no unit attribute. -/
theorem scanPorts_spec (fs : Sysfs) (unit : Int) :
    ∀ (remaining p : Nat),
      (scanPorts fs unit remaining p).1 =
        (List.range' p remaining).any (fun (q : Nat) => portHasLid fs unit (q : Int)) ∧
      ∀ (u : Int) (a : String), Read.unit_s64 u a ∉ (scanPorts fs unit remaining p).2 := by
  intro remaining
  induction remaining with
  | zero => intro p; simp [scanPorts]
  | succ n ih =>
    intro p
    obtain ⟨ih1, ih2⟩ := ih (p + 1)
    have hr := hfi_get_port_lid_reads fs unit p
    by_cases h : (hfi_get_port_lid fs unit p).1 ≠ -1
    · have hp := (hfi_get_port_lid_ne_iff fs unit p).1 h
      simp only [scanPorts]
      rw [if_pos h]
      simp only [List.range'_succ, List.any_cons, hp, Bool.true_or, true_and]
      exact hr
    · have hp : portHasLid fs unit p = false := by
        cases hq : portHasLid fs unit p
        · rfl
        · exact absurd ((hfi_get_port_lid_ne_iff fs unit p).2 hq) h
      simp only [scanPorts]
      rw [if_neg h]
      simp only [List.range'_succ, List.any_cons, hp, Bool.false_or, ih1, true_and]
      intro u a hm
      rcases List.mem_append.1 hm with hm | hm
      · exact hr u a hm
      · exact ih2 u a hm

/-- The update `n += (uint32_t) val` on an `int` that holds the reduction of `s` gives the
reduction of `s + val`. -/
theorem toInt32_step (s v : Int) :
    toInt32 (toUInt32 (toInt32 s) + toUInt32 v) = toInt32 (s + v) := by
  unfold toInt32 toUInt32; omega

/-- One unit of `hfi_get_num_contexts`: the running total grows by `nctxtsOf`, and `nctxts`
is read exactly when the unit has a port with a LID. -/
theorem contextsOfUnit_spec (cfg : Config) (fs : Sysfs) (unit : Int) (s : Int) :
    (contextsOfUnit cfg fs unit (toInt32 s)).1 = toInt32 (s + nctxtsOf cfg fs unit) ∧
    ∀ (u : Int) (a : String), Read.unit_s64 u a ∈ (contextsOfUnit cfg fs unit (toInt32 s)).2 ↔
      (u = unit ∧ a = "nctxts" ∧ unitHasLid cfg fs unit = true) := by
  obtain ⟨h1, h2⟩ := scanPorts_spec fs unit cfg.HFI_MAX_PORT 1
  have hu : unitHasLid cfg fs unit = (scanPorts fs unit cfg.HFI_MAX_PORT 1).1 := by
    rw [h1]; rfl
  cases hq : (scanPorts fs unit cfg.HFI_MAX_PORT 1).1
  · rw [hq] at hu
    refine ⟨by simp [contextsOfUnit, hq, nctxtsOf, hu], ?_⟩
    intro u a
    simp only [contextsOfUnit, hq, hu]
    simp [h2 u a]
  · rw [hq] at hu
    by_cases hv : (fs.unit_read_s64 unit "nctxts").1 = 0
    · refine ⟨by simp [contextsOfUnit, hq, nctxtsOf, hu, hv, toInt32_step], ?_⟩
      intro u a
      simp [contextsOfUnit, hq, hu, hv, h2 u a]
    · refine ⟨by simp [contextsOfUnit, hq, nctxtsOf, hu, hv], ?_⟩
      intro u a
      simp [contextsOfUnit, hq, hu, hv, h2 u a]

/-- The loop over the units: the running total grows by the sum of `nctxtsOf` over the units
visited, and the `nctxts` reads are those of the visited units that have a port with a
LID. -/
theorem contextsOfUnits_spec (cfg : Config) (fs : Sysfs) :
    ∀ (remaining u : Nat) (s : Int),
      (contextsOfUnits cfg fs remaining u (toInt32 s)).1 =
        toInt32 (s + ((List.range' u remaining).map (fun (k : Nat) => nctxtsOf cfg fs (k : Int))).sum) ∧
      ∀ (x : Int) (a : String),
        Read.unit_s64 x a ∈ (contextsOfUnits cfg fs remaining u (toInt32 s)).2 ↔
          (∃ k : Nat, u ≤ k ∧ k < u + remaining ∧ x = k ∧ a = "nctxts" ∧
            unitHasLid cfg fs k = true) := by
  intro remaining
  induction remaining with
  | zero => intro u s; simp [contextsOfUnits]; intro x a k h1 h2; omega
  | succ n ih =>
    intro u s
    obtain ⟨c1, c2⟩ := contextsOfUnit_spec cfg fs u s
    obtain ⟨i1, i2⟩ := ih (u + 1) (s + nctxtsOf cfg fs u)
    refine ⟨?_, ?_⟩
    · simp only [contextsOfUnits, c1, i1, List.range'_succ, List.map_cons, List.sum_cons]
      rw [add_assoc]
    · intro x a
      simp only [contextsOfUnits, List.mem_append, c1, c2 x a, i2 x a]
      constructor
      · rintro (⟨h1, h2, h3⟩ | ⟨k, h1, h2, h3⟩)
        · exact ⟨u, le_refl _, by omega, h1, h2, h3⟩
        · exact ⟨k, by omega, by omega, h3⟩
      · rintro ⟨k, h1, h2, h3, h4, h5⟩
        by_cases hk : k = u
        · subst hk; exact Or.inl ⟨h3, h4, h5⟩
        · exact Or.inr ⟨k, by omega, by omega, h3, h4, h5⟩

/-- The predicate `unitHasLid` spelled out on the attributes of the ports
`1..HFI_MAX_PORT`. -/
theorem unitHasLid_iff (cfg : Config) (fs : Sysfs) (unit : Int) :
    unitHasLid cfg fs unit = true ↔
      ∃ p : Nat, 1 ≤ p ∧ p ≤ cfg.HFI_MAX_PORT ∧
        (fs.port_read unit p "phys_state").1 ≠ -1 ∧
        (fs.port_read unit p "phys_state").2.take 9 = linkUpMarker ∧
        (fs.port_read_s64 unit p "lid").1 ≠ -1 ∧
        toInt32 (fs.port_read_s64 unit p "lid").2 ≠ -1 := by
  simp only [unitHasLid, List.any_eq_true, List.mem_range'_1, portHasLid, Bool.and_eq_true,
    decide_eq_true_eq]
  constructor
  · rintro ⟨p, ⟨h1, h2⟩, ⟨⟨h3, h4⟩, h5⟩, h6⟩
    exact ⟨p, h1, by omega, h3, h4, h5, h6⟩
  · rintro ⟨p, h1, h2, h3, h4, h5, h6⟩
    exact ⟨p, ⟨h1, by omega⟩, ⟨⟨h3, h4⟩, h5⟩, h6⟩

/-- C6, amended: `hfi_get_num_contexts` with at least one unit present.  A unit is examined
when it is one of `0..units-1` (any-unit sentinel) or the given unit.  The `nctxts`
attribute of an examined unit is read if and only if some port `p` in `1..HFI_MAX_PORT`
has `hfi_get_port_lid(unit, p) != -1`, that is: its `phys_state` is readable and begins
with "5: LinkUp" and its `lid` is readable with a value other than -1.  The result is the
sum, reduced to a 32-bit `int`, of the `nctxts` values that were read successfully. -/
theorem hfi_get_num_contexts_spec (cfg : Config) (fs : Sysfs) (fuel units : Nat)
    (hu : hfi_get_num_units fs fuel = some units) (hpos : 0 < units) :
    (∃ reads, hfi_get_num_contexts cfg fs fuel cfg.HFI_UNIT_ID_ANY =
        some (toInt32 (((List.range units).map
          (fun (k : Nat) => nctxtsOf cfg fs (k : Int))).sum), reads) ∧
      ∀ k : Nat, Read.unit_s64 (k : Int) "nctxts" ∈ reads ↔
        (k < units ∧ unitHasLid cfg fs (k : Int) = true)) ∧
    (∀ unit_id : Int, unit_id ≠ cfg.HFI_UNIT_ID_ANY →
      ∃ reads, hfi_get_num_contexts cfg fs fuel unit_id =
          some (toInt32 (nctxtsOf cfg fs unit_id), reads) ∧
        (Read.unit_s64 unit_id "nctxts" ∈ reads ↔ unitHasLid cfg fs unit_id = true)) ∧
    (∀ unit : Int, unitHasLid cfg fs unit = true ↔
      ∃ p : Nat, 1 ≤ p ∧ p ≤ cfg.HFI_MAX_PORT ∧
        (fs.port_read unit p "phys_state").1 ≠ -1 ∧
        (fs.port_read unit p "phys_state").2.take 9 = linkUpMarker ∧
        (fs.port_read_s64 unit p "lid").1 ≠ -1 ∧
        toInt32 (fs.port_read_s64 unit p "lid").2 ≠ -1) := by
  have z : toInt32 0 = 0 := by decide
  refine ⟨?_, ?_, unitHasLid_iff cfg fs⟩
  · obtain ⟨h1, h2⟩ := contextsOfUnits_spec cfg fs units 0 0
    rw [z] at h1 h2
    refine ⟨(contextsOfUnits cfg fs units 0 0).2, ?_, ?_⟩
    · simp only [hfi_get_num_contexts, hu, hpos, gt_iff_lt, if_true]
      rw [← List.range_eq_range', zero_add] at h1
      rw [← h1]
    · intro k
      rw [h2]
      constructor
      · rintro ⟨j, _, h4, h5, _, h7⟩
        have : k = j := by exact_mod_cast h5
        subst this
        exact ⟨by omega, h7⟩
      · rintro ⟨h3, h4⟩
        exact ⟨k, Nat.zero_le _, by omega, rfl, rfl, h4⟩
  · intro unit_id hne
    obtain ⟨h1, h2⟩ := contextsOfUnit_spec cfg fs unit_id 0
    rw [z] at h1 h2
    refine ⟨(contextsOfUnit cfg fs unit_id 0).2, ?_, ?_⟩
    · simp only [hfi_get_num_contexts, hu, hpos, gt_iff_lt, if_true, hne, if_false]
      rw [zero_add] at h1
      rw [← h1]
    · rw [h2]; simp

/-- Witness for C6 (amended), on the two-unit tree: the any-unit call reads `nctxts` of
the units that have a port with a LID and sums what it read. -/
theorem hfi_get_num_contexts_spec_witness :
    hfi_get_num_units twoUnits 8 = some 2 ∧ 0 < 2 ∧
    ∃ reads, hfi_get_num_contexts demoConfig twoUnits 8 demoConfig.HFI_UNIT_ID_ANY =
        some (toInt32 (((List.range 2).map
          (fun (k : Nat) => nctxtsOf demoConfig twoUnits (k : Int))).sum), reads) ∧
      ∀ k : Nat, Read.unit_s64 (k : Int) "nctxts" ∈ reads ↔
        (k < 2 ∧ unitHasLid demoConfig twoUnits (k : Int) = true) :=
  ⟨by decide, by decide,
    (hfi_get_num_contexts_spec demoConfig twoUnits 8 2 (by decide) (by decide)).1⟩

/-- C6 as stated fails: on the two-unit tree port 1 of unit 1 has a `phys_state` text that
begins with "5: LinkUp" and the unit's `nctxts` is readable (160), but the `lid` of that
port cannot be read; the any-unit call then issues no read of `nctxts` for unit 1 and
returns 160, the value of unit 0 alone. -/
theorem hfi_get_num_contexts_linkup_not_enough :
    (twoUnits.port_read 1 1 "phys_state").1 ≠ -1 ∧
    (twoUnits.port_read 1 1 "phys_state").2.take 9 = linkUpMarker ∧
    twoUnits.unit_read_s64 1 "nctxts" = (0, 160) ∧
    hfi_get_num_contexts demoConfig twoUnits 8 demoConfig.HFI_UNIT_ID_ANY =
      some (160, [Read.port 0 1 "phys_state", Read.port_s64 0 1 "lid",
        Read.unit_s64 0 "nctxts", Read.port 1 1 "phys_state", Read.port_s64 1 1 "lid",
        Read.port 1 2 "phys_state"]) ∧
    Read.unit_s64 1 "nctxts" ∉ [Read.port 0 1 "phys_state", Read.port_s64 0 1 "lid",
        Read.unit_s64 0 "nctxts", Read.port 1 1 "phys_state", Read.port_s64 1 1 "lid",
        Read.port 1 2 "phys_state"] := by
  refine ⟨by decide, by decide, by decide, by decide, by decide⟩

/-! ## Theorems on hfi_get_port_rate -/

/-- When the read succeeds and `strtod` reports zero with nothing consumed,
`hfi_get_port_rate` returns the return value of the read. -/
theorem hfi_get_port_rate_parse_failure (strtod : List Char → Strtod) (fs : Sysfs)
    (unit port : Int) (hz : (strtod (fs.port_read unit port "rate").2).isZero = true)
    (hc : (strtod (fs.port_read unit port "rate").2).consumed = 0) :
    hfi_get_port_rate strtod fs unit port = (fs.port_read unit port "rate").1 := by
  unfold hfi_get_port_rate
  by_cases h : (fs.port_read unit port "rate").1 = -1
  · simp [h]
  · simp [h, hz, hc]

/-- C7, the failing run: the `rate` attribute is read successfully (the reader returns 8,
the text is "unknown" and a newline) and `strtod` finds no number in it.  The function
takes its error exit but returns 8, the return value of the reader, and not -1. -/
theorem hfi_get_port_rate_unparsed_returns_read_result :
    hfi_get_port_rate strtodNoNumber
      (sysfsWithText 8 ['u', 'n', 'k', 'n', 'o', 'w', 'n', Char.ofNat 10]) 0 1 = 8 ∧
    hfi_get_port_rate strtodNoNumber
      (sysfsWithText 8 ['u', 'n', 'k', 'n', 'o', 'w', 'n', Char.ofNat 10]) 0 1 ≠ -1 := by
  decide

/-! ## Theorems on the name-list readers -/

/-- The loop of `hfi_count_names` counts the newline characters of the C string. -/
theorem hfi_count_names_eq (s : List Char) :
    hfi_count_names s = (((cstr s).count (Char.ofNat 10) : Nat) : Int) := by
  induction s with
  | nil => simp [hfi_count_names, cstr]
  | cons c s ih =>
    unfold cstr at ih ⊢
    by_cases h0 : c = Char.ofNat 0
    · simp [hfi_count_names, h0]
    · by_cases h1 : c = Char.ofNat 10
      · subst h1
        simp [hfi_count_names, ih, List.takeWhile_cons]
      · have h2 : ¬ (c == Char.ofNat 10) = true := by simpa using h1
        simp [hfi_count_names, h0, h1, ih, List.takeWhile_cons, List.count_cons, h2]

/-- A text without NUL is its own C string. -/
theorem cstr_eq_self (s : List Char) (h : Char.ofNat 0 ∉ s) : cstr s = s := by
  unfold cstr
  rw [List.takeWhile_eq_self_iff]
  intro c hc
  have : c ≠ Char.ofNat 0 := fun e => h (e ▸ hc)
  simpa using this

/-- C10: each name-list reader returns -1 when the raw read reports a negative result and
otherwise the number of newline characters in the text the read handed back (the C
string: the characters before its first NUL, which is the whole text when it holds no
NUL).  The text of three lines ending in a newline counts 3, the same text without the
final newline counts 2. -/
theorem name_list_readers_count_newlines (h : Hfifs) (unitno : Int) :
    hfi_get_stats_names h =
      (if (h.read "driver_stats_names").1 < 0 then -1
       else (((cstr (h.read "driver_stats_names").2).count (Char.ofNat 10) : Nat) : Int)) ∧
    hfi_get_ctrs_unit_names h unitno =
      (if (h.unit_read unitno "counter_names").1 < 0 then -1
       else (((cstr (h.unit_read unitno "counter_names").2).count (Char.ofNat 10) : Nat)
         : Int)) ∧
    hfi_get_ctrs_port_names h unitno =
      (if (h.unit_read unitno "portcounter_names").1 < 0 then -1
       else (((cstr (h.unit_read unitno "portcounter_names").2).count (Char.ofNat 10) : Nat)
         : Int)) ∧
    (∀ text : List Char, Char.ofNat 0 ∉ text → cstr text = text) ∧
    hfi_get_stats_names
      (hfifsWithText 6 ['a', Char.ofNat 10, 'b', Char.ofNat 10, 'c', Char.ofNat 10]) = 3 ∧
    hfi_get_stats_names
      (hfifsWithText 5 ['a', Char.ofNat 10, 'b', Char.ofNat 10, 'c']) = 2 := by
  refine ⟨?_, ?_, ?_, cstr_eq_self, by decide, by decide⟩
  · simp only [hfi_get_stats_names, hfi_count_names_eq]
  · simp only [hfi_get_ctrs_unit_names, hfi_count_names_eq]
  · simp only [hfi_get_ctrs_port_names, hfi_count_names_eq]

/-! ## Theorems on the congestion-control loaders -/

/-- What was stored at the start of a buffer is read back from there. -/
theorem store_take (buf bytes : List Byte) : (store buf bytes).take bytes.length = bytes := by
  simp [store]

/-- Reading from offset 0 takes the first `count` bytes. -/
theorem readAt_zero (file : List Byte) (count : Nat) : readAt file 0 count = file.take count := by
  simp [readAt]

/-- A settings file shorter than 198 bytes gives the fallback 0. -/
theorem hfi_get_cc_settings_bin_short (cfg : Config) (files : Files) (unit port : Int)
    (ccabuf file : List Byte)
    (hopen : files.content (ccSettingsPath cfg unit port) = some file)
    (h : file.length < 198) :
    (hfi_get_cc_settings_bin cfg files unit port ccabuf).1 = 0 := by
  have hlen : (readAt file 0 198).length = min 198 file.length := by
    simp [readAt]
  have h198 : (readAt file 0 198).length ≠ 198 := by rw [hlen]; omega
  simp [hfi_get_cc_settings_bin, hopen, h198]

/-- C2, amended: the record that `hfi_get_cc_settings_bin` reads is 4 + 2 + 32 * 6 = 198
bytes long.  The call never returns a value other than 0 or 1.  For a file that opens: when
it holds exactly 198 bytes the call returns 1 and the first 198 bytes of the caller's
buffer are those bytes (when it holds more, its first 198 bytes); when it holds fewer than
198 bytes (38 for instance) the call returns 0. -/
theorem hfi_get_cc_settings_bin_spec (cfg : Config) (files : Files) (unit port : Int)
    (ccabuf : List Byte) :
    ((hfi_get_cc_settings_bin cfg files unit port ccabuf).1 = 0 ∨
      (hfi_get_cc_settings_bin cfg files unit port ccabuf).1 = 1) ∧
    ∀ file : List Byte, files.content (ccSettingsPath cfg unit port) = some file →
      (file.length = 198 →
        (hfi_get_cc_settings_bin cfg files unit port ccabuf).1 = 1 ∧
        (hfi_get_cc_settings_bin cfg files unit port ccabuf).2.take 198 = file) ∧
      (198 ≤ file.length →
        (hfi_get_cc_settings_bin cfg files unit port ccabuf).1 = 1 ∧
        (hfi_get_cc_settings_bin cfg files unit port ccabuf).2.take 198 = file.take 198) ∧
      (file.length < 198 → (hfi_get_cc_settings_bin cfg files unit port ccabuf).1 = 0) := by
  refine ⟨?_, ?_⟩
  · unfold hfi_get_cc_settings_bin
    simp only
    split
    · exact Or.inl rfl
    · split_ifs
      · exact Or.inl rfl
      · exact Or.inr rfl
  · intro file hopen
    have hlen : (readAt file 0 198).length = min 198 file.length := by
      simp [readAt]
    have key : 198 ≤ file.length →
        (hfi_get_cc_settings_bin cfg files unit port ccabuf).1 = 1 ∧
        (hfi_get_cc_settings_bin cfg files unit port ccabuf).2.take 198 = file.take 198 := by
      intro h
      have h198 : (readAt file 0 198).length = 198 := by rw [hlen]; omega
      have e : hfi_get_cc_settings_bin cfg files unit port ccabuf =
          (1, store (store ccabuf (pathBytes (ccSettingsPath cfg unit port)))
            (readAt file 0 198)) := by
        simp [hfi_get_cc_settings_bin, hopen, h198]
      rw [e]
      refine ⟨rfl, ?_⟩
      have := store_take (store ccabuf (pathBytes (ccSettingsPath cfg unit port)))
        (readAt file 0 198)
      rw [h198] at this
      rw [this, readAt_zero]
    refine ⟨?_, key, ?_⟩
    · intro h
      obtain ⟨k1, k2⟩ := key (by omega)
      refine ⟨k1, ?_⟩
      rw [k2, ← h, List.take_length]
    · exact hfi_get_cc_settings_bin_short cfg files unit port ccabuf file hopen

/-- Witness for C2 (amended): a file of 198 bytes is loaded, with return value 1. -/
theorem hfi_get_cc_settings_bin_spec_witness :
    (hfi_get_cc_settings_bin demoConfig (filesWith (List.replicate 198 7)) 0 1
      (List.replicate 256 0)).1 = 1 ∧
    (hfi_get_cc_settings_bin demoConfig (filesWith (List.replicate 198 7)) 0 1
      (List.replicate 256 0)).2.take 198 = List.replicate 198 7 :=
  ((hfi_get_cc_settings_bin_spec demoConfig (filesWith (List.replicate 198 7)) 0 1
    (List.replicate 256 0)).2 (List.replicate 198 7) rfl).1 (List.length_replicate _ _)

/-- C2 as stated fails: a settings file that opens and holds exactly 38 bytes makes
`hfi_get_cc_settings_bin` return 0, not 1. -/
theorem hfi_get_cc_settings_bin_38_bytes_fallback :
    (List.replicate 38 (7 : Byte)).length = 38 ∧
    (filesWith (List.replicate 38 7)).content (ccSettingsPath demoConfig 0 1) =
      some (List.replicate 38 7) ∧
    (hfi_get_cc_settings_bin demoConfig (filesWith (List.replicate 38 7)) 0 1
      (List.replicate 256 0)).1 = 0 := by
  refine ⟨List.length_replicate _ _, rfl, ?_⟩
  exact hfi_get_cc_settings_bin_short demoConfig (filesWith (List.replicate 38 7)) 0 1
    (List.replicate 256 0) (List.replicate 38 7) rfl
    (by rw [List.length_replicate]; decide)

/-- A two-byte value is below 65536. -/
theorem le16_lt (l : List Byte) : le16 l < 65536 := by
  match l with
  | [] => simp [le16]
  | [b0] => have := b0.isLt; simp only [le16]; omega
  | b0 :: b1 :: _ => have := b0.isLt; have := b1.isLt; simp only [le16]; omega

/-- A byte sequence forms half as many 16-bit entries. -/
theorem le16s_length : ∀ l : List Byte, (le16s l).length = l.length / 2
  | [] => by simp [le16s]
  | [_] => by simp [le16s]
  | _ :: _ :: rest => by
    simp only [le16s, List.length_cons, le16s_length rest]
    omega

/-- When the two high bytes that `ccti_limit` holds on entry are not both zero,
`hfi_get_cc_table_bin` returns 0 with a null table whatever the file holds. -/
theorem hfi_get_cc_table_bin_dirty_stack (cfg : Config) (files : Files) (stack : Nat)
    (mallocOk : Bool) (unit port : Int) (hs : stack / 65536 % 65536 ≠ 0) :
    hfi_get_cc_table_bin cfg files stack mallocOk unit port = (0, none) := by
  unfold hfi_get_cc_table_bin
  split
  · rfl
  · rename_i file _
    simp only
    split_ifs with h1 h2
    · rfl
    · rfl
    · exfalso
      apply h2
      have hl := le16_lt (readAt file 0 2)
      have hh : stack / 65536 % 65536 < 65536 := Nat.mod_lt _ (by decide)
      unfold toInt32
      push_cast
      omega
    · exfalso
      apply h2
      have hl := le16_lt (readAt file 0 2)
      have hh : stack / 65536 % 65536 < 65536 := Nat.mod_lt _ (by decide)
      unfold toInt32
      push_cast
      omega
    · exfalso
      apply h2
      have hl := le16_lt (readAt file 0 2)
      have hh : stack / 65536 % 65536 < 65536 := Nat.mod_lt _ (by decide)
      unfold toInt32
      push_cast
      omega

/-- When the two high bytes that `ccti_limit` holds on entry are zero and `malloc` succeeds,
a file with indicator `L` gives `L` and the table of its next `2 * (L + 1)` bytes exactly
when `63 <= L` and the body is complete, and 0 with a null table otherwise. -/
theorem hfi_get_cc_table_bin_clean_stack (cfg : Config) (files : Files) (stack : Nat)
    (unit port : Int) (b0 b1 : Byte) (body : List Byte)
    (hopen : files.content (ccTablePath cfg unit port) = some (b0 :: b1 :: body))
    (hs : stack / 65536 % 65536 = 0) :
    ((63 ≤ b0.val + 256 * b1.val ∧ 2 * (b0.val + 256 * b1.val + 1) ≤ body.length) →
      hfi_get_cc_table_bin cfg files stack true unit port =
        (((b0.val + 256 * b1.val : Nat) : Int),
          some (le16s (body.take (2 * (b0.val + 256 * b1.val + 1))))) ∧
      (le16s (body.take (2 * (b0.val + 256 * b1.val + 1)))).length =
        b0.val + 256 * b1.val + 1) ∧
    (¬ (63 ≤ b0.val + 256 * b1.val ∧ 2 * (b0.val + 256 * b1.val + 1) ≤ body.length) →
      hfi_get_cc_table_bin cfg files stack true unit port = (0, none)) := by
  have hb0 := b0.isLt
  have hb1 := b1.isLt
  have hgot : readAt (b0 :: b1 :: body) 0 2 = [b0, b1] := by simp [readAt]
  have hlim : toInt32 ((stack / 65536 % 65536 * 65536 + le16 [b0, b1] : Nat) : Int) =
      ((b0.val + 256 * b1.val : Nat) : Int) := by
    rw [hs]
    simp only [le16, zero_mul, zero_add]
    unfold toInt32
    push_cast
    omega
  have hcct : ∀ n : Nat, readAt (b0 :: b1 :: body) 2 n = body.take n := by
    intro n; simp [readAt]
  have hi : (((b0.val + 256 * b1.val : Nat) : Int) + 1) * 2 =
      ((2 * (b0.val + 256 * b1.val + 1) : Nat) : Int) := by
    push_cast; ring
  unfold hfi_get_cc_table_bin
  simp only [hopen, hgot, hlim, hi, Int.toNat_ofNat, hcct]
  refine ⟨?_, ?_⟩
  · rintro ⟨h1, h2⟩
    have hlen : (body.take (2 * (b0.val + 256 * b1.val + 1))).length =
        2 * (b0.val + 256 * b1.val + 1) := by
      rw [List.length_take]; omega
    refine ⟨?_, ?_⟩
    · have c1 : ¬ ((((b0.val + 256 * b1.val : Nat) : Int) < 63) ∨
          (((b0.val + 256 * b1.val : Nat) : Int) > 65535)) := by
        push_cast; omega
      simp [c1, hlen]
      omega
    · rw [le16s_length, hlen]; omega
  · intro h
    by_cases h1 : 63 ≤ b0.val + 256 * b1.val
    · have h2 : ¬ 2 * (b0.val + 256 * b1.val + 1) ≤ body.length := fun h2 => h ⟨h1, h2⟩
      have hlen : (body.take (2 * (b0.val + 256 * b1.val + 1))).length ≠
          2 * (b0.val + 256 * b1.val + 1) := by
        rw [List.length_take]; omega
      have hlen2 : ¬ (((body.take (2 * (b0.val + 256 * b1.val + 1))).length : Int) =
          ((2 * (b0.val + 256 * b1.val + 1) : Nat) : Int)) := by
        intro e; exact hlen (by exact_mod_cast e)
      simp [hlen2]
      intro _ _; omega
    · have c1 : (((b0.val + 256 * b1.val : Nat) : Int) < 63) := by
        push_cast; omega
      simp [c1]
      intro _ _; omega

set_option maxRecDepth 20000 in
/-- C3, the failing run: a table file with indicator 63 and a complete body of 128 bytes.
When the two high bytes of the uninitialised `int ccti_limit` are zero the call returns
63 with a table of 64 entries; when they hold the pattern 0x0001 the variable reads
65536 + 63 after the two-byte `read`, the range test rejects it and the call returns 0
with a null table. -/
theorem hfi_get_cc_table_bin_stale_high_bytes :
    hfi_get_cc_table_bin demoConfig (filesWith ([63, 0] ++ List.replicate 128 0)) 0 true 0 1 =
      (63, some (List.replicate 64 0)) ∧
    hfi_get_cc_table_bin demoConfig (filesWith ([63, 0] ++ List.replicate 128 0)) 65536 true
      0 1 = (0, none) := by
  refine ⟨?_, ?_⟩
  · decide
  · exact hfi_get_cc_table_bin_dirty_stack _ _ _ _ _ _ (by decide)

/-! ## Theorems on hfi_get_port_gid -/

/-- Each lower-case hexadecimal digit character is read back as its value and is none of the
characters the scanner treats specially. -/
theorem hexChar_facts : ∀ d : Fin 16,
    hexDigit (hexChar d.val) = some d.val ∧ isspace (hexChar d.val) = false ∧
    hexChar d.val ≠ '-' ∧ hexChar d.val ≠ '+' ∧ hexChar d.val ≠ 'x' ∧ hexChar d.val ≠ 'X' ∧
    hexChar d.val ≠ Char.ofNat 0 := by
  decide

/-- A hexadecimal digit character is read back as its value. -/
theorem hexDigit_hexChar (d : Nat) (h : d < 16) : hexDigit (hexChar d) = some d :=
  (hexChar_facts ⟨d, h⟩).1

/-- The conversion `%4x` on four canonical digits yields the group and stops behind them. -/
theorem convHex_hex4 (lenient0x : Bool) (g : Nat) (hg : g < 65536) (rest : List Char) :
    convHex lenient0x 4 (hex4 g ++ rest) = .ok g rest := by
  have h3 : g / 4096 % 16 < 16 := Nat.mod_lt _ (by decide)
  have h2 : g / 256 % 16 < 16 := Nat.mod_lt _ (by decide)
  have h1 : g / 16 % 16 < 16 := Nat.mod_lt _ (by decide)
  have h0 : g % 16 < 16 := Nat.mod_lt _ (by decide)
  obtain ⟨a1, a2, a3, a4, _, _, _⟩ := hexChar_facts ⟨g / 4096 % 16, h3⟩
  obtain ⟨b1, _, _, _, b5, b6, _⟩ := hexChar_facts ⟨g / 256 % 16, h2⟩
  obtain ⟨c1, _⟩ := hexChar_facts ⟨g / 16 % 16, h1⟩
  obtain ⟨d1, _⟩ := hexChar_facts ⟨g % 16, h0⟩
  simp only at a1 a2 a3 a4 b1 b5 b6 c1 d1
  have hv : 16 * (16 * (16 * (g / 4096 % 16) + g / 256 % 16) + g / 16 % 16) + g % 16 = g := by
    omega
  have hr : readHex 4 (hexChar (g / 4096 % 16) :: hexChar (g / 256 % 16) ::
      hexChar (g / 16 % 16) :: hexChar (g % 16) :: rest) 0 0 = (g, 4, rest) := by
    simp only [readHex, a1, b1, c1, d1, Nat.mul_zero, Nat.zero_add, hv]
  have hs : storeHex false g = g := by
    simp only [storeHex, Bool.false_eq_true, if_false]
    omega
  simp only [hex4, List.cons_append, List.nil_append, convHex, List.dropWhile_cons, a2]
  simp [a3, a4, convHexBody, b5, b6, hr, hs]

/-- Four canonical digits belong to the C string. -/
theorem cstr_hex4 (g : Nat) (rest : List Char) : cstr (hex4 g ++ rest) = hex4 g ++ cstr rest := by
  have h3 : g / 4096 % 16 < 16 := Nat.mod_lt _ (by decide)
  have h2 : g / 256 % 16 < 16 := Nat.mod_lt _ (by decide)
  have h1 : g / 16 % 16 < 16 := Nat.mod_lt _ (by decide)
  have h0 : g % 16 < 16 := Nat.mod_lt _ (by decide)
  have a := (hexChar_facts ⟨g / 4096 % 16, h3⟩).2.2.2.2.2.2
  have b := (hexChar_facts ⟨g / 256 % 16, h2⟩).2.2.2.2.2.2
  have c := (hexChar_facts ⟨g / 16 % 16, h1⟩).2.2.2.2.2.2
  have d := (hexChar_facts ⟨g % 16, h0⟩).2.2.2.2.2.2
  simp only at a b c d
  simp [cstr, hex4, List.takeWhile_cons, a, b, c, d]

/-- A colon belongs to the C string. -/
theorem cstr_colon (rest : List Char) : cstr (':' :: rest) = ':' :: cstr rest := by
  have h : ':' ≠ Char.ofNat 0 := by decide
  simp [cstr, List.takeWhile_cons, h]

/-- One round of the scan loop on a colon and four canonical digits. -/
theorem scanColonHex_hex4 (lenient0x : Bool) (n g : Nat) (hg : g < 65536) (rest : List Char)
    (acc : List Nat) :
    scanColonHex lenient0x (n + 1) (':' :: (hex4 g ++ rest)) acc =
      scanColonHex lenient0x n rest (acc ++ [g]) := by
  simp only [scanColonHex, convHex_hex4 lenient0x g hg rest]

/-- The scan of a canonical GID text assigns all 8 groups. -/
theorem sscanf_gid_formatGid (lenient0x : Bool) (g0 g1 g2 g3 g4 g5 g6 g7 : Nat)
    (h0 : g0 < 65536) (h1 : g1 < 65536) (h2 : g2 < 65536) (h3 : g3 < 65536)
    (h4 : g4 < 65536) (h5 : g5 < 65536) (h6 : g6 < 65536) (h7 : g7 < 65536)
    (tail : List Char) :
    sscanf_gid lenient0x (formatGid [g0, g1, g2, g3, g4, g5, g6, g7] ++ tail) =
      (8, [g0, g1, g2, g3, g4, g5, g6, g7]) := by
  simp only [sscanf_gid, formatGid, List.append_assoc, List.cons_append, cstr_hex4, cstr_colon,
    convHex_hex4 lenient0x g0 h0, scanColonHex_hex4 lenient0x _ _ h1,
    scanColonHex_hex4 lenient0x _ _ h2, scanColonHex_hex4 lenient0x _ _ h3,
    scanColonHex_hex4 lenient0x _ _ h4, scanColonHex_hex4 lenient0x _ _ h5,
    scanColonHex_hex4 lenient0x _ _ h6]
  rw [scanColonHex_hex4 lenient0x 0 g7 h7 (cstr tail)]
  simp [scanColonHex]

/-- A 16-bit group survives the passage through `int` and `uint64_t`. -/
theorem gidWord_small (g : Nat) (h : g < 65536) : gidWord g = g := by
  unfold gidWord toUInt64 toInt32
  omega

/-- For 16-bit groups the shifts and ors of `packGid` add up the groups at their
positions. -/
theorem packGid_small (a b c d : Nat) (ha : a < 65536) (hb : b < 65536) (hc : c < 65536)
    (hd : d < 65536) :
    packGid a b c d = a * 2 ^ 48 + b * 2 ^ 32 + c * 2 ^ 16 + d := by
  unfold packGid
  rw [gidWord_small a ha, gidWord_small b hb, gidWord_small c hc, gidWord_small d hd]
  simp only [Nat.shiftLeft_eq, Nat.mul_one, Nat.pow_zero]
  rw [Nat.mod_eq_of_lt (by omega : a * 2 ^ 48 < 2 ^ 64),
    Nat.mod_eq_of_lt (by omega : b * 2 ^ 32 < 2 ^ 64),
    Nat.mod_eq_of_lt (by omega : c * 2 ^ 16 < 2 ^ 64),
    Nat.mod_eq_of_lt (by omega : d < 2 ^ 64)]
  have k1 : c * 2 ^ 16 ||| d = c * 2 ^ 16 + d := by
    have h := Nat.mul_add_lt_is_or (i := 16) (b := d) (by omega) c
    rw [Nat.mul_comm] at h
    exact h.symm
  have k2 : b * 2 ^ 32 ||| (c * 2 ^ 16 + d) = b * 2 ^ 32 + (c * 2 ^ 16 + d) := by
    have h := Nat.mul_add_lt_is_or (i := 32) (b := c * 2 ^ 16 + d) (by omega) b
    rw [Nat.mul_comm] at h
    exact h.symm
  have k3 : a * 2 ^ 48 ||| (b * 2 ^ 32 + (c * 2 ^ 16 + d)) =
      a * 2 ^ 48 + (b * 2 ^ 32 + (c * 2 ^ 16 + d)) := by
    have h := Nat.mul_add_lt_is_or (i := 48) (b := b * 2 ^ 32 + (c * 2 ^ 16 + d)) (by omega) a
    rw [Nat.mul_comm] at h
    exact h.symm
  rw [Nat.or_assoc, Nat.or_assoc, k1, k2, k3]
  omega

/-- C5: round trip of the GID text.  When the `gids/0` read succeeds and its text is the
canonical string of 8 groups below 65536, each as 4 hexadecimal digits, separated by
colons (whatever follows the last group, a newline for instance), `hfi_get_port_gid`
returns the reader's non-error return value with
`hi = g0 * 2^48 + g1 * 2^32 + g2 * 2^16 + g3` and
`lo = g4 * 2^48 + g5 * 2^32 + g6 * 2^16 + g7`, and the 8 groups are the 16-bit fields of
`hi` and `lo`. -/
theorem hfi_get_port_gid_round_trip (lenient0x : Bool) (fs : Sysfs) (unit port : Int)
    (hi0 lo0 : Nat) (g0 g1 g2 g3 g4 g5 g6 g7 : Nat) (tail : List Char)
    (h0 : g0 < 65536) (h1 : g1 < 65536) (h2 : g2 < 65536) (h3 : g3 < 65536)
    (h4 : g4 < 65536) (h5 : g5 < 65536) (h6 : g6 < 65536) (h7 : g7 < 65536)
    (hret : (fs.port_read unit port "gids/0").1 ≠ -1)
    (htext : (fs.port_read unit port "gids/0").2 =
      formatGid [g0, g1, g2, g3, g4, g5, g6, g7] ++ tail) :
    hfi_get_port_gid lenient0x fs unit port hi0 lo0 =
      ⟨(fs.port_read unit port "gids/0").1,
        g0 * 2 ^ 48 + g1 * 2 ^ 32 + g2 * 2 ^ 16 + g3,
        g4 * 2 ^ 48 + g5 * 2 ^ 32 + g6 * 2 ^ 16 + g7⟩ ∧
    (hfi_get_port_gid lenient0x fs unit port hi0 lo0).ret ≠ -1 ∧
    (hfi_get_port_gid lenient0x fs unit port hi0 lo0).hi / 2 ^ 48 = g0 ∧
    (hfi_get_port_gid lenient0x fs unit port hi0 lo0).hi / 2 ^ 32 % 65536 = g1 ∧
    (hfi_get_port_gid lenient0x fs unit port hi0 lo0).hi / 2 ^ 16 % 65536 = g2 ∧
    (hfi_get_port_gid lenient0x fs unit port hi0 lo0).hi % 65536 = g3 ∧
    (hfi_get_port_gid lenient0x fs unit port hi0 lo0).lo / 2 ^ 48 = g4 ∧
    (hfi_get_port_gid lenient0x fs unit port hi0 lo0).lo / 2 ^ 32 % 65536 = g5 ∧
    (hfi_get_port_gid lenient0x fs unit port hi0 lo0).lo / 2 ^ 16 % 65536 = g6 ∧
    (hfi_get_port_gid lenient0x fs unit port hi0 lo0).lo % 65536 = g7 := by
  have hs := sscanf_gid_formatGid lenient0x g0 g1 g2 g3 g4 g5 g6 g7 h0 h1 h2 h3 h4 h5 h6 h7 tail
  have e : hfi_get_port_gid lenient0x fs unit port hi0 lo0 =
      ⟨(fs.port_read unit port "gids/0").1,
        g0 * 2 ^ 48 + g1 * 2 ^ 32 + g2 * 2 ^ 16 + g3,
        g4 * 2 ^ 48 + g5 * 2 ^ 32 + g6 * 2 ^ 16 + g7⟩ := by
    unfold hfi_get_port_gid
    simp only [hret, if_false, htext, hs, ne_eq, not_true_eq_false, List.getD_cons_zero,
      List.getD_cons_succ, packGid_small g0 g1 g2 g3 h0 h1 h2 h3,
      packGid_small g4 g5 g6 g7 h4 h5 h6 h7]
  rw [e]
  refine ⟨rfl, hret, ?_, ?_, ?_, ?_, ?_, ?_, ?_, ?_⟩ <;> simp only <;> omega

/-- Witness for C5: the GID fe80:0000:0000:0000:0011:7501:0165:b1a3, read with a closing
newline. -/
theorem hfi_get_port_gid_round_trip_witness :
    hfi_get_port_gid true
      (sysfsWithText 40 (formatGid [0xfe80, 0, 0, 0, 0x11, 0x7501, 0x165, 0xb1a3] ++
        [Char.ofNat 10])) 0 1 0 0 =
      ⟨40, 0xfe80 * 2 ^ 48 + 0 * 2 ^ 32 + 0 * 2 ^ 16 + 0,
        0x11 * 2 ^ 48 + 0x7501 * 2 ^ 32 + 0x165 * 2 ^ 16 + 0xb1a3⟩ :=
  (hfi_get_port_gid_round_trip true
    (sysfsWithText 40 (formatGid [0xfe80, 0, 0, 0, 0x11, 0x7501, 0x165, 0xb1a3] ++
      [Char.ofNat 10])) 0 1 0 0 0xfe80 0 0 0 0x11 0x7501 0x165 0xb1a3 [Char.ofNat 10]
    (by decide) (by decide) (by decide) (by decide) (by decide) (by decide) (by decide)
    (by decide) (by decide) rfl).1

/-- What `readHex` consumed is a run of hexadecimal digits no longer than the width. -/
theorem readHex_sound : ∀ (w : Nat) (s : List Char) (acc n v n2 : Nat) (rest : List Char),
    readHex w s acc n = (v, n2, rest) →
    ∃ digits, s = digits ++ rest ∧ (∀ c ∈ digits, (hexDigit c).isSome = true) ∧
      n2 = n + digits.length ∧ digits.length ≤ w := by
  intro w
  induction w with
  | zero =>
    intro s acc n v n2 rest h
    simp only [readHex, Prod.mk.injEq] at h
    exact ⟨[], by simp [h.2.2], by simp, by simp [h.2.1], by simp⟩
  | succ w ih =>
    intro s acc n v n2 rest h
    cases s with
    | nil =>
      simp only [readHex, Prod.mk.injEq] at h
      exact ⟨[], by simp [h.2.2], by simp, by simp [h.2.1], by simp⟩
    | cons c s =>
      cases hd : hexDigit c with
      | none =>
        simp only [readHex, hd, Prod.mk.injEq] at h
        exact ⟨[], by simp [h.2.2], by simp, by simp [h.2.1], by simp⟩
      | some d =>
        simp only [readHex, hd] at h
        obtain ⟨digits, e1, e2, e3, e4⟩ := ih s _ _ v n2 rest h
        refine ⟨c :: digits, by simp [e1], ?_, ?_, ?_⟩
        · intro x hx
          rcases List.mem_cons.1 hx with hx | hx
          · rw [hx, hd]; rfl
          · exact e2 x hx
        · simp only [List.length_cons]; omega
        · simp only [List.length_cons]; omega

/-- What a successful conversion consumed behind the sign is a body within the width. -/
theorem convHexBody_sound (lenient0x neg : Bool) (w : Nat) (s : List Char) (v : Nat)
    (rest : List Char) (h : convHexBody lenient0x neg w s = .ok v rest) :
    ∃ body, s = body ++ rest ∧ body.length ≤ w ∧ IsHexBody lenient0x body := by
  unfold convHexBody at h
  simp only at h
  by_cases hc : 2 ≤ w ∧ s.head? = some '0' ∧ (s.tail.head? = some 'x' ∨ s.tail.head? = some 'X')
  · rw [if_pos hc] at h
    obtain ⟨hw, hh, hx⟩ := hc
    match s, hh, hx, h with
    | c :: x :: t, hh, hx, h =>
      simp only [List.head?_cons, Option.some.injEq] at hh
      simp only [List.tail_cons, List.head?_cons, Option.some.injEq] at hx
      simp only [List.drop_succ_cons, List.drop_zero] at h
      obtain ⟨digits, e1, e2, e3, e4⟩ := readHex_sound (w - 2) t 0 0 _ _ _ rfl
      by_cases h0 : (readHex (w - 2) t 0 0).2.1 = 0
      · rw [if_pos h0] at h
        by_cases hl : lenient0x = true
        · rw [if_pos hl] at h
          simp only [Conv.ok.injEq] at h
          refine ⟨['0', x], by simp [hh, h.2], by simpa using hw,
            Or.inr ⟨x, [], rfl, hx, by simp, Or.inr hl⟩⟩
        · rw [if_neg hl] at h
          cases h
      · rw [if_neg h0] at h
        simp only [Conv.ok.injEq] at h
        rw [h.2] at e1
        refine ⟨'0' :: x :: digits, by simp [hh, e1], ?_, Or.inr ⟨x, digits, rfl, hx, e2, ?_⟩⟩
        · simp only [List.length_cons]; omega
        · left
          intro hn
          rw [hn] at e3
          exact h0 (by simpa using e3)
    | [c], hh, hx, h => simp at hx
    | [], hh, hx, h => simp at hh
  · rw [if_neg hc] at h
    obtain ⟨digits, e1, e2, e3, e4⟩ := readHex_sound w s 0 0 _ _ _ rfl
    by_cases h0 : (readHex w s 0 0).2.1 = 0
    · rw [if_pos h0] at h
      cases h
    · rw [if_neg h0] at h
      simp only [Conv.ok.injEq] at h
      rw [h.2] at e1
      refine ⟨digits, e1, e4, Or.inl ⟨?_, e2⟩⟩
      intro hd
      rw [hd] at e3
      exact h0 (by simpa using e3)

/-- What a successful `%4x` consumed is a field. -/
theorem convHex_sound (lenient0x : Bool) (s : List Char) (v : Nat) (rest : List Char)
    (h : convHex lenient0x 4 s = .ok v rest) :
    ∃ f, s = f ++ rest ∧ IsHexField lenient0x f := by
  obtain ⟨ws, hws, hsplit⟩ : ∃ ws : List Char, (∀ c ∈ ws, isspace c = true) ∧
      s = ws ++ s.dropWhile isspace :=
    ⟨s.takeWhile isspace, fun c hc => List.mem_takeWhile_imp hc,
      (List.takeWhile_append_dropWhile isspace s).symm⟩
  unfold convHex at h
  generalize s.dropWhile isspace = d at h hsplit
  subst hsplit
  cases d with
  | nil => cases h
  | cons c t =>
    simp only at h
    by_cases hm : c = '-' ∧ 0 < 4
    · rw [if_pos hm] at h
      obtain ⟨body, e1, e2, e3⟩ := convHexBody_sound lenient0x true (4 - 1) t v rest h
      refine ⟨ws ++ ['-'] ++ body, ?_, ws, ['-'], body, rfl, hws, Or.inr (Or.inr rfl), ?_, e3⟩
      · rw [hm.1, e1]; simp
      · simp only [List.length_singleton]; omega
    · rw [if_neg hm] at h
      by_cases hp : c = '+' ∧ 0 < 4
      · rw [if_pos hp] at h
        obtain ⟨body, e1, e2, e3⟩ := convHexBody_sound lenient0x false (4 - 1) t v rest h
        refine ⟨ws ++ ['+'] ++ body, ?_, ws, ['+'], body, rfl, hws, Or.inr (Or.inl rfl), ?_, e3⟩
        · rw [hp.1, e1]; simp
        · simp only [List.length_singleton]; omega
      · rw [if_neg hp] at h
        obtain ⟨body, e1, e2, e3⟩ := convHexBody_sound lenient0x false 4 (c :: t) v rest h
        refine ⟨ws ++ [] ++ body, ?_, ws, [], body, rfl, hws, Or.inl rfl, ?_, e3⟩
        · rw [e1]; simp
        · simp only [List.length_nil]; omega

/-- The scan loop assigns at most `n` further values, and when it assigns all `n` the input
starts with `n` times a colon and a field. -/
theorem scanColonHex_sound (lenient0x : Bool) :
    ∀ (n : Nat) (s : List Char) (acc : List Nat),
      (scanColonHex lenient0x n s acc).1 ≤ ((acc.length + n : Nat) : Int) ∧
      ((scanColonHex lenient0x n s acc).1 = ((acc.length + n : Nat) : Int) →
        ColonFields lenient0x n s) := by
  intro n
  induction n with
  | zero => intro s acc; simp [scanColonHex, ColonFields]
  | succ n ih =>
    intro s acc
    have fail : ((acc.length : Nat) : Int) ≤ ((acc.length + (n + 1) : Nat) : Int) ∧
        (((acc.length : Nat) : Int) = ((acc.length + (n + 1) : Nat) : Int) →
          ColonFields lenient0x (n + 1) s) := by
      refine ⟨by push_cast; omega, ?_⟩
      intro h
      exfalso
      have : acc.length = acc.length + (n + 1) := by exact_mod_cast h
      omega
    match s with
    | [] => simpa [scanColonHex] using fail
    | c :: t =>
      by_cases hc : c = ':'
      · subst hc
        cases hv : convHex lenient0x 4 t with
        | ok v rest =>
          obtain ⟨i1, i2⟩ := ih rest (acc ++ [v])
          have hl : (acc ++ [v]).length + n = acc.length + (n + 1) := by
            simp only [List.length_append, List.length_singleton]; omega
          rw [hl] at i1 i2
          simp only [scanColonHex, hv]
          refine ⟨i1, ?_⟩
          intro h
          obtain ⟨f, e1, e2⟩ := convHex_sound lenient0x t v rest hv
          exact ⟨f, rest, by rw [e1], e2, i2 h⟩
        | matchFail => simpa [scanColonHex, hv] using fail
        | inputFail => simpa [scanColonHex, hv] using fail
      · have e : scanColonHex lenient0x (n + 1) (c :: t) acc =
            (((acc.length : Nat) : Int), acc) := by
          unfold scanColonHex
          split
          · rfl
          · rename_i h
            injection h with h6 _
            exact absurd h6 hc
          · rfl
        rw [e]
        exact fail

/-- When the scan assigns 8 values the text starts with 8 colon-separated fields. -/
theorem sscanf_gid_sound (lenient0x : Bool) (text : List Char)
    (h : (sscanf_gid lenient0x text).1 = 8) : GidLead lenient0x (cstr text) := by
  unfold sscanf_gid at h
  cases hv : convHex lenient0x 4 (cstr text) with
  | ok v rest =>
    rw [hv] at h
    simp only at h
    obtain ⟨f, e1, e2⟩ := convHex_sound lenient0x (cstr text) v rest hv
    exact ⟨f, rest, e1, e2, (scanColonHex_sound lenient0x 7 rest [v]).2 (by rw [h]; rfl)⟩
  | matchFail => rw [hv] at h; simp at h
  | inputFail => rw [hv] at h; simp at h

/-- A text that starts with `n` times a colon and a field holds at least `n` colons. -/
theorem colonFields_count (lenient0x : Bool) :
    ∀ (n : Nat) (s : List Char), ColonFields lenient0x n s → n ≤ s.count ':' := by
  intro n
  induction n with
  | zero => intro s _; exact Nat.zero_le _
  | succ n ih =>
    intro s h
    obtain ⟨f, rest, e, _, hr⟩ := h
    have := ih rest hr
    rw [e, List.count_cons_self, List.count_append]
    omega

/-- A text that starts with 8 colon-separated fields holds at least 7 colons. -/
theorem gidLead_count (lenient0x : Bool) (s : List Char) (h : GidLead lenient0x s) :
    7 ≤ s.count ':' := by
  obtain ⟨f, rest, e, _, hr⟩ := h
  have := colonFields_count lenient0x 7 rest hr
  rw [e, List.count_append]
  omega

/-- On a run of hexadecimal digits that fits the width and is followed by the end of the
input or by a character that is no digit, `readHex` reads exactly the run. -/
theorem readHex_digits : ∀ (digits rest : List Char) (w acc n : Nat),
    (∀ c ∈ digits, (hexDigit c).isSome = true) → digits.length ≤ w →
    (∀ c, rest.head? = some c → hexDigit c = none) →
    ∃ v, readHex w (digits ++ rest) acc n = (v, n + digits.length, rest) := by
  intro digits
  induction digits with
  | nil =>
    intro rest w acc n _ _ hr
    cases w with
    | zero => exact ⟨acc, by simp [readHex]⟩
    | succ w =>
      cases rest with
      | nil => exact ⟨acc, by simp [readHex]⟩
      | cons c t =>
        have := hr c rfl
        exact ⟨acc, by simp [readHex, this]⟩
  | cons d ds ih =>
    intro rest w acc n hd hw hr
    cases w with
    | zero => simp at hw
    | succ w =>
      have h1 := hd d (List.mem_cons_self _ _)
      obtain ⟨x, hx⟩ := Option.isSome_iff_exists.1 h1
      obtain ⟨v, hv⟩ := ih rest w (16 * acc + x) (n + 1)
        (fun c hc => hd c (List.mem_cons_of_mem _ hc))
        (by simpa using hw) hr
      refine ⟨v, ?_⟩
      simp only [List.cons_append, readHex, hx, hv, List.length_cons]
      show readHex w (ds ++ rest) (16 * acc + x) (n + 1) = (v, n + (ds.length + 1), rest)
      rw [hv]
      congr 2
      omega

/-- The digit count of `readHex` never goes down. -/
theorem readHex_count_ge : ∀ (w : Nat) (s : List Char) (acc n : Nat),
    n ≤ (readHex w s acc n).2.1 := by
  intro w
  induction w with
  | zero => intro s acc n; simp [readHex]
  | succ w ih =>
    intro s acc n
    cases s with
    | nil => simp [readHex]
    | cons c t =>
      cases hd : hexDigit c with
      | none => simp [readHex, hd]
      | some d =>
        simp only [readHex, hd]
        exact Nat.le_trans (Nat.le_succ n) (ih t _ _)

/-- When the input starts with a hexadecimal digit and some width is left, `readHex` reads
at least one digit. -/
theorem readHex_count_pos (w : Nat) (c : Char) (t : List Char) (hw : 0 < w)
    (hc : (hexDigit c).isSome = true) : (readHex w (c :: t) 0 0).2.1 ≠ 0 := by
  obtain ⟨w, rfl⟩ : ∃ k, w = k + 1 := ⟨w - 1, by omega⟩
  obtain ⟨x, hx⟩ := Option.isSome_iff_exists.1 hc
  simp only [readHex, hx]
  have := readHex_count_ge w t (16 * 0 + x) (0 + 1)
  omega

/-- Facts on the characters the scanner treats specially. -/
theorem special_chars :
    hexDigit ':' = none ∧ hexDigit 'x' = none ∧ hexDigit 'X' = none ∧
    (hexDigit '0').isSome = true ∧ isspace '+' = false ∧ isspace '-' = false ∧
    hexDigit '+' = none ∧ hexDigit '-' = none := by
  decide

/-- A hexadecimal digit is no white space. -/
theorem isspace_of_hexDigit (c : Char) (h : (hexDigit c).isSome = true) :
    isspace c = false := by
  unfold hexDigit at h
  unfold isspace
  split_ifs at h with h1 h2 h3
  · simp only [decide_eq_false_iff_not]; omega
  · simp only [decide_eq_false_iff_not]; omega
  · simp only [decide_eq_false_iff_not]; omega
  · simp at h

/-- The first character of a body is a hexadecimal digit. -/
theorem isHexBody_head (lenient0x : Bool) (body : List Char) (h : IsHexBody lenient0x body) :
    ∃ c t, body = c :: t ∧ (hexDigit c).isSome = true := by
  rcases h with ⟨hne, hall⟩ | ⟨x, digits, e, _, _, _⟩
  · cases body with
    | nil => exact absurd rfl hne
    | cons c t => exact ⟨c, t, rfl, hall c (List.mem_cons_self _ _)⟩
  · exact ⟨'0', x :: digits, e, special_chars.2.2.2.1⟩

/-- A body that fits the width and is followed by a colon is converted, up to the colon,
under either reading of a digit-less `0x`. -/
theorem convHexBody_colon (lenient0x neg : Bool) (w : Nat) (body rest : List Char)
    (hb : IsHexBody lenient0x body) (hw : body.length ≤ w) :
    ∃ v, convHexBody lenient0x neg w (body ++ ':' :: rest) = .ok v (':' :: rest) := by
  have hcolon : ∀ c, (':' :: rest).head? = some c → hexDigit c = none := by
    intro c hc
    simp only [List.head?_cons, Option.some.injEq] at hc
    rw [← hc]; exact special_chars.1
  rcases hb with ⟨hne, hall⟩ | ⟨x, digits, e, hx, hall, hd⟩
  · -- digits only
    obtain ⟨v, hv⟩ := readHex_digits body (':' :: rest) w 0 0 hall hw hcolon
    have hlen : body.length ≠ 0 := fun h => hne (List.length_eq_zero.1 h)
    have hcond : ¬ (2 ≤ w ∧ (body ++ ':' :: rest).head? = some '0' ∧
        ((body ++ ':' :: rest).tail.head? = some 'x' ∨
          (body ++ ':' :: rest).tail.head? = some 'X')) := by
      rintro ⟨_, _, h3⟩
      match body, hall with
      | [], _ => exact hne rfl
      | [c], _ => simp at h3
      | c :: c2 :: t, hall =>
        have h2 := hall c2 (by simp)
        simp only [List.cons_append, List.tail_cons, List.head?_cons, Option.some.injEq] at h3
        rcases h3 with h3 | h3
        · rw [h3, special_chars.2.1] at h2; simp at h2
        · rw [h3, special_chars.2.2.1] at h2; simp at h2
    refine ⟨storeHex neg v, ?_⟩
    unfold convHexBody
    rw [if_neg hcond]
    simp only [hv, Nat.zero_add, hlen, if_false]
  · -- `0x` and digits
    subst e
    simp only [List.length_cons] at hw
    obtain ⟨v, hv⟩ := readHex_digits digits (':' :: rest) (w - 2) 0 0 hall (by omega) hcolon
    have hcond : 2 ≤ w ∧ (('0' :: x :: digits) ++ ':' :: rest).head? = some '0' ∧
        ((('0' :: x :: digits) ++ ':' :: rest).tail.head? = some 'x' ∨
          (('0' :: x :: digits) ++ ':' :: rest).tail.head? = some 'X') := by
      refine ⟨by omega, rfl, ?_⟩
      rcases hx with hx | hx
      · left; rw [hx]; rfl
      · right; rw [hx]; rfl
    unfold convHexBody
    rw [if_pos hcond]
    have hdrop : (('0' :: x :: digits) ++ ':' :: rest).drop 2 = digits ++ ':' :: rest := rfl
    simp only [hdrop, hv, Nat.zero_add]
    by_cases h0 : digits.length = 0
    · have hl : lenient0x = true := by
        rcases hd with hd | hd
        · exact absurd (List.length_eq_zero.1 h0) hd
        · exact hd
      have hnil : digits = [] := List.length_eq_zero.1 h0
      refine ⟨0, ?_⟩
      simp [h0, hl, hnil]
    · exact ⟨storeHex neg v, by simp [h0]⟩

/-- Under the reading that converts a digit-less `0x` to zero, a body that fits the width
is converted whatever follows it. -/
theorem convHexBody_last (neg : Bool) (w : Nat) (body rest : List Char)
    (hb : IsHexBody true body) (hw : body.length ≤ w) :
    ∃ v rest2, convHexBody true neg w (body ++ rest) = .ok v rest2 := by
  obtain ⟨c, t, e, hc⟩ := isHexBody_head true body hb
  subst e
  simp only [List.length_cons] at hw
  unfold convHexBody
  simp only
  by_cases hcond : 2 ≤ w ∧ ((c :: t) ++ rest).head? = some '0' ∧
      (((c :: t) ++ rest).tail.head? = some 'x' ∨ ((c :: t) ++ rest).tail.head? = some 'X')
  · rw [if_pos hcond]
    by_cases h0 : (readHex (w - 2) (((c :: t) ++ rest).drop 2) 0 0).2.1 = 0
    · rw [if_pos h0]; exact ⟨_, _, rfl⟩
    · rw [if_neg h0]; exact ⟨_, _, rfl⟩
  · rw [if_neg hcond]
    have hpos := readHex_count_pos w c (t ++ rest) (by omega) hc
    rw [List.cons_append, if_neg hpos]
    exact ⟨_, _, rfl⟩

/-- The input behind the white space of a field starts with no white space. -/
theorem field_dropWhile (lenient0x : Bool) (ws sign body rest : List Char)
    (hws : ∀ c ∈ ws, isspace c = true)
    (hs : sign = [] ∨ sign = ['+'] ∨ sign = ['-']) (hb : IsHexBody lenient0x body) :
    (ws ++ sign ++ body ++ rest).dropWhile isspace = sign ++ body ++ rest := by
  obtain ⟨c, t, e, hc⟩ := isHexBody_head lenient0x body hb
  have hsp := isspace_of_hexDigit c hc
  rw [List.append_assoc, List.append_assoc, List.dropWhile_append_of_pos hws]
  rcases hs with hs | hs | hs
  · subst hs; subst e
    simp [List.dropWhile_cons, hsp]
  · subst hs
    simp [List.dropWhile_cons, special_chars.2.2.2.2.1]
  · subst hs
    simp [List.dropWhile_cons, special_chars.2.2.2.2.2.1]

/-- A field followed by a colon is converted up to the colon. -/
theorem convHex_colon (lenient0x : Bool) (f rest : List Char) (hf : IsHexField lenient0x f) :
    ∃ v, convHex lenient0x 4 (f ++ ':' :: rest) = .ok v (':' :: rest) := by
  obtain ⟨ws, sign, body, e, hws, hs, hlen, hb⟩ := hf
  subst e
  obtain ⟨c, t, eb, hc⟩ := isHexBody_head lenient0x body hb
  unfold convHex
  rw [field_dropWhile lenient0x ws sign body (':' :: rest) hws hs hb]
  rcases hs with hs | hs | hs
  · subst hs; subst eb
    have hm : ¬ (c = '-' ∧ 0 < 4) := by
      rintro ⟨h, _⟩; rw [h, special_chars.2.2.2.2.2.2.2] at hc; simp at hc
    have hp : ¬ (c = '+' ∧ 0 < 4) := by
      rintro ⟨h, _⟩; rw [h, special_chars.2.2.2.2.2.2.1] at hc; simp at hc
    simp only [List.nil_append, List.cons_append]
    rw [if_neg hm, if_neg hp]
    simpa using convHexBody_colon lenient0x false 4 (c :: t) rest hb (by simpa using hlen)
  · subst hs
    obtain ⟨v, hv⟩ := convHexBody_colon lenient0x false 3 body rest hb
      (by simp only [List.length_singleton] at hlen; omega)
    exact ⟨v, by simp [hv]⟩
  · subst hs
    obtain ⟨v, hv⟩ := convHexBody_colon lenient0x true 3 body rest hb
      (by simp only [List.length_singleton] at hlen; omega)
    exact ⟨v, by simp [hv]⟩

/-- Under the reading that converts a digit-less `0x` to zero, a field is converted
whatever follows it. -/
theorem convHex_last (f rest : List Char) (hf : IsHexField true f) :
    ∃ v rest2, convHex true 4 (f ++ rest) = .ok v rest2 := by
  obtain ⟨ws, sign, body, e, hws, hs, hlen, hb⟩ := hf
  subst e
  obtain ⟨c, t, eb, hc⟩ := isHexBody_head true body hb
  unfold convHex
  rw [field_dropWhile true ws sign body rest hws hs hb]
  rcases hs with hs | hs | hs
  · subst hs; subst eb
    have hm : ¬ (c = '-' ∧ 0 < 4) := by
      rintro ⟨h, _⟩; rw [h, special_chars.2.2.2.2.2.2.2] at hc; simp at hc
    have hp : ¬ (c = '+' ∧ 0 < 4) := by
      rintro ⟨h, _⟩; rw [h, special_chars.2.2.2.2.2.2.1] at hc; simp at hc
    simp only [List.nil_append, List.cons_append]
    rw [if_neg hm, if_neg hp]
    simpa using convHexBody_last false 4 (c :: t) rest hb (by simpa using hlen)
  · subst hs
    obtain ⟨v, rest2, hv⟩ := convHexBody_last false 3 body rest hb
      (by simp only [List.length_singleton] at hlen; omega)
    exact ⟨v, rest2, by simp [hv]⟩
  · subst hs
    obtain ⟨v, rest2, hv⟩ := convHexBody_last true 3 body rest hb
      (by simp only [List.length_singleton] at hlen; omega)
    exact ⟨v, rest2, by simp [hv]⟩

/-- One round of the scan loop on a colon and a convertible field. -/
theorem scanColonHex_step (lenient0x : Bool) (n : Nat) (s rest : List Char) (acc : List Nat)
    (v : Nat) (h : convHex lenient0x 4 s = .ok v rest) :
    scanColonHex lenient0x (n + 1) (':' :: s) acc =
      scanColonHex lenient0x n rest (acc ++ [v]) := by
  simp only [scanColonHex, h]

/-- Under the reading that converts a digit-less `0x` to zero, the scan loop assigns all
`n` values on a text that starts with `n` times a colon and a field. -/
theorem scanColonHex_complete :
    ∀ (n : Nat) (s : List Char) (acc : List Nat), ColonFields true n s →
      (scanColonHex true n s acc).1 = ((acc.length + n : Nat) : Int) := by
  intro n
  induction n with
  | zero => intro s acc _; simp [scanColonHex]
  | succ n ih =>
    intro s acc h
    obtain ⟨f, rest, e, hf, hr⟩ := h
    subst e
    have hl : ∀ v : Nat, (acc ++ [v]).length + n = acc.length + (n + 1) := by
      intro v; simp only [List.length_append, List.length_singleton]; omega
    cases n with
    | zero =>
      obtain ⟨v, rest2, hv⟩ := convHex_last f rest hf
      rw [scanColonHex_step true 0 (f ++ rest) rest2 acc v hv, ← hl v]
      rfl
    | succ m =>
      have hr2 := hr
      obtain ⟨f2, rest2, e2, _, _⟩ := hr2
      subst e2
      obtain ⟨v, hv⟩ := convHex_colon true f (f2 ++ rest2) hf
      rw [scanColonHex_step true (m + 1) _ _ acc v hv, ih _ (acc ++ [v]) hr, hl v]

/-- Under the reading that converts a digit-less `0x` to zero, the scan assigns 8 values
exactly on the texts that start with 8 colon-separated fields. -/
theorem sscanf_gid_eight_iff (text : List Char) :
    (sscanf_gid true text).1 = 8 ↔ GidLead true (cstr text) := by
  refine ⟨sscanf_gid_sound true text, ?_⟩
  rintro ⟨f, rest, e, hf, hr⟩
  have hr2 := hr
  obtain ⟨f2, rest2, e2, _, _⟩ := hr2
  subst e2
  obtain ⟨v, hv⟩ := convHex_colon true f (f2 ++ rest2) hf
  unfold sscanf_gid
  rw [e, hv]
  simp only
  rw [scanColonHex_complete 7 _ [v] hr]
  rfl

/-- When the scan does not assign 8 values the call returns -1 and leaves the outputs
alone. -/
theorem hfi_get_port_gid_of_scan_ne (lenient0x : Bool) (fs : Sysfs) (unit port : Int)
    (hi0 lo0 : Nat) (h : (sscanf_gid lenient0x (fs.port_read unit port "gids/0").2).1 ≠ 8) :
    hfi_get_port_gid lenient0x fs unit port hi0 lo0 = ⟨-1, hi0, lo0⟩ := by
  unfold hfi_get_port_gid
  by_cases hr : (fs.port_read unit port "gids/0").1 = -1
  · simp [hr]
  · simp [hr, h]

/-- C4, amended: the text of `gids/0` is scanned with `%4x:%4x:%4x:%4x:%4x:%4x:%4x:%4x`.
Whenever the text does not start with 8 colon-separated fields that `%4x` reads (white
space, an optional sign, an optional `0x`, hexadecimal digits, at most 4 characters
behind the white space), and so in particular whenever it holds fewer than 7 colons,
`hfi_get_port_gid` returns -1 and leaves `*hi` and `*lo` as they were; and every return
of -1 leaves them as they were.  What follows the eighth field is not looked at: with a
scanner that converts a digit-less `0x` to zero, as glibc and musl do, the call returns
-1 only when the read failed or the text does not start with 8 such fields, and on a text
that starts with 8 such fields it returns the return value of the read. -/
theorem hfi_get_port_gid_malformed (lenient0x : Bool) (fs : Sysfs) (unit port : Int)
    (hi0 lo0 : Nat) :
    (¬ GidLead lenient0x (cstr (fs.port_read unit port "gids/0").2) →
      hfi_get_port_gid lenient0x fs unit port hi0 lo0 = ⟨-1, hi0, lo0⟩) ∧
    ((cstr (fs.port_read unit port "gids/0").2).count ':' < 7 →
      hfi_get_port_gid lenient0x fs unit port hi0 lo0 = ⟨-1, hi0, lo0⟩) ∧
    ((hfi_get_port_gid lenient0x fs unit port hi0 lo0).ret = -1 →
      (hfi_get_port_gid lenient0x fs unit port hi0 lo0).hi = hi0 ∧
      (hfi_get_port_gid lenient0x fs unit port hi0 lo0).lo = lo0) ∧
    ((hfi_get_port_gid true fs unit port hi0 lo0).ret = -1 ↔
      ((fs.port_read unit port "gids/0").1 = -1 ∨
        ¬ GidLead true (cstr (fs.port_read unit port "gids/0").2))) ∧
    (GidLead true (cstr (fs.port_read unit port "gids/0").2) →
      (hfi_get_port_gid true fs unit port hi0 lo0).ret =
        (fs.port_read unit port "gids/0").1) := by
  have key : ∀ l : Bool, ¬ GidLead l (cstr (fs.port_read unit port "gids/0").2) →
      hfi_get_port_gid l fs unit port hi0 lo0 = ⟨-1, hi0, lo0⟩ := by
    intro l h
    apply hfi_get_port_gid_of_scan_ne
    intro h8
    exact h (sscanf_gid_sound l _ h8)
  refine ⟨key lenient0x, ?_, ?_, ?_, ?_⟩
  · intro hcount
    apply key
    intro hg
    have := gidLead_count lenient0x _ hg
    omega
  · intro hret
    by_cases h8 : (sscanf_gid lenient0x (fs.port_read unit port "gids/0").2).1 = 8
    · by_cases hr : (fs.port_read unit port "gids/0").1 = -1
      · simp [hfi_get_port_gid, hr]
      · exfalso
        simp [hfi_get_port_gid, hr, h8] at hret
    · rw [hfi_get_port_gid_of_scan_ne lenient0x fs unit port hi0 lo0 h8]
      exact ⟨rfl, rfl⟩
  · constructor
    · intro hret
      by_cases hr : (fs.port_read unit port "gids/0").1 = -1
      · exact Or.inl hr
      · right
        intro hg
        have h8 := (sscanf_gid_eight_iff _).2 hg
        simp [hfi_get_port_gid, hr, h8] at hret
    · rintro (hr | hg)
      · simp [hfi_get_port_gid, hr]
      · rw [key true hg]
  · intro hg
    have h8 := (sscanf_gid_eight_iff _).2 hg
    by_cases hr : (fs.port_read unit port "gids/0").1 = -1
    · simp [hfi_get_port_gid, hr]
    · simp [hfi_get_port_gid, hr, h8]

/-- Witness for C4 (amended): a text of 7 groups holds 6 colons; the call returns -1 and
the outputs keep the values 5 and 6 they had. -/
theorem hfi_get_port_gid_malformed_witness :
    (cstr ((sysfsWithText 14 "1:2:3:4:5:6:7\n".toList).port_read 0 1 "gids/0").2).count ':'
      < 7 ∧
    hfi_get_port_gid true (sysfsWithText 14 "1:2:3:4:5:6:7\n".toList) 0 1 5 6 = ⟨-1, 5, 6⟩ :=
  ⟨by decide,
    (hfi_get_port_gid_malformed true (sysfsWithText 14 "1:2:3:4:5:6:7\n".toList) 0 1 5
      6).2.1 (by decide)⟩

/-- C4 as stated fails: a text of 9 groups, a text with garbage behind the eighth group
and a text whose first group carries a sign are none of them 8 colon-separated groups of
1 to 4 hexadecimal digits, yet on each the call returns the reader's return value, not
-1, and writes `*hi` and `*lo`. -/
theorem hfi_get_port_gid_accepts_malformed :
    hfi_get_port_gid true (sysfsWithText 17 "1:2:3:4:5:6:7:8:9".toList) 0 1 0 0 =
      ⟨17, 0x0001000200030004, 0x0005000600070008⟩ ∧
    hfi_get_port_gid false (sysfsWithText 17 "1:2:3:4:5:6:7:8:9".toList) 0 1 0 0 =
      ⟨17, 0x0001000200030004, 0x0005000600070008⟩ ∧
    hfi_get_port_gid true (sysfsWithText 18 "1:2:3:4:5:6:7:8zz!".toList) 0 1 0 0 =
      ⟨18, 0x0001000200030004, 0x0005000600070008⟩ ∧
    hfi_get_port_gid true (sysfsWithText 16 "1:2:3:4:5:6:7:-8".toList) 0 1 0 0 =
      ⟨16, 0x0001000200030004, 0xfffffffffffffff8⟩ := by
  decide

end OpaService
